import Mathlib

/-!
# J-Switch: discovery, parsing, inventory lookup and switching

A shallow embedding of the core of J-Switch (`pkg/scanner`, `pkg/config`,
`pkg/switcher`, `pkg/models`) together with the properties its design document
states about it.

Conventions of the embedding.

* A Go `string` is the list of runes that Go's decoder reads from it
  (`GoString`).  String literals of the source are written `"...".toList`.
* Go library facts that depend on the platform or on the Unicode tables are the
  fields of `Platform`; every theorem holds for every `Platform`.
* A Go `(T, error)` result is an `Except String T`.
* A command of `cmd/jswitch` is the trace of its effects, given the outcomes of the calls
  it makes.
* For the round trip through the backing file, where bytes that are not valid UTF-8
  matter, a Go string is given unit by unit (`RawString`); `runesOf` is its `GoString`.
-/

set_option autoImplicit false

namespace JSwitch

/-! ## Go strings -/

/-- A Go string, read as its sequence of runes. -/
abbrev GoString := List Char

/-- The platform and library parameters of the embedding. -/
structure Platform where
  /-- Width in bits of Go's `int` (`strconv.IntSize`): 32 or 64. -/
  intSize : Nat
  /-- The map `unicode.ToLower` on runes above `unicode.MaxASCII`. -/
  unicodeToLower : Char → Char
  /-- A representative of the `unicode.SimpleFold` orbit of a rune. -/
  foldKey : Char → Char
  /-- The Unicode property `White_Space` on runes above `unicode.MaxLatin1`. -/
  whiteSpace : Char → Bool
  /-- The function `filepath.Dir`. -/
  Dir : GoString → GoString
  /-- The function `filepath.Base`. -/
  Base : GoString → GoString
  /-- The function `filepath.Join` on a directory path and an entry name. -/
  Join : GoString → GoString → GoString

/-- The rune map of `unicode.ToLower`: `A`..`Z` go to `a`..`z`, other ASCII runes are
unchanged, and the runes above ASCII follow the Unicode table. -/
def toLowerRune (P : Platform) (c : Char) : Char :=
  if c.toNat < 128 then c.toLower else P.unicodeToLower c

/-- The function `strings.ToLower`: every rune mapped by `unicode.ToLower`. -/
def ToLower (P : Platform) (s : GoString) : GoString :=
  s.map (toLowerRune P)

/-- The function `strings.HasPrefix`. -/
def HasPrefix : GoString → GoString → Bool
  | _, [] => true
  | [], _ :: _ => false
  | c :: s, p :: ps => c == p && HasPrefix s ps

/-- The function `strings.Contains`: `substr` occurs in `s` at some position. -/
def Contains : GoString → GoString → Bool
  | [], substr => HasPrefix [] substr
  | c :: s, substr => HasPrefix (c :: s) substr || Contains s substr

/-- The function `strings.Split` for a one-rune separator. -/
def Split (sep : Char) : GoString → List GoString
  | [] => [[]]
  | c :: s =>
    if c = sep then [] :: Split sep s
    else
      match Split sep s with
      | [] => [[c]]
      | part :: parts => (c :: part) :: parts

/-- The function `strings.Join` for a one-rune separator. -/
def Join (sep : Char) : List GoString → GoString
  | [] => []
  | [part] => part
  | part :: next :: parts => part ++ sep :: Join sep (next :: parts)

/-- The function `unicode.IsSpace`: the Latin-1 space runes, and above Latin-1 the
runes with the property `White_Space`. -/
def isSpace (P : Platform) (c : Char) : Bool :=
  if c.toNat ≤ 255 then
    c == '\t' || c == '\n' || c.toNat == 11 || c.toNat == 12 || c == '\r' || c == ' ' ||
      c.toNat == 133 || c.toNat == 160
  else P.whiteSpace c

/-- The function `strings.TrimSpace`: leading and trailing white space removed. -/
def TrimSpace (P : Platform) (s : GoString) : GoString :=
  (((s.dropWhile (isSpace P)).reverse).dropWhile (isSpace P)).reverse

/-- One step of `strings.EqualFold`: the runes are equal, or both are ASCII and one is
the upper-case letter of which the other is the lower-case form, or one of them is above
ASCII and they lie in the same `unicode.SimpleFold` orbit. -/
def equalFoldRune (P : Platform) (a b : Char) : Bool :=
  let sr := if a.toNat ≤ b.toNat then a else b
  let tr := if a.toNat ≤ b.toNat then b else a
  if a == b then true
  else if tr.toNat < 128 then 'A'.toNat ≤ sr.toNat && sr.toNat ≤ 'Z'.toNat && tr.toNat == sr.toNat + 32
  else P.foldKey sr == P.foldKey tr

/-- The function `strings.EqualFold`: equality under simple Unicode case folding. -/
def EqualFold (P : Platform) : GoString → GoString → Bool
  | [], [] => true
  | a :: s, b :: t => equalFoldRune P a b && EqualFold P s t
  | _, _ => false

/-- The value of a string of decimal digits. -/
def digitsValue (ds : GoString) : Nat :=
  ds.foldl (fun n c => 10 * n + (c.toNat - 48)) 0

/-- The function `strconv.Atoi`: an optional sign and at least one decimal digit, with a
value that fits a signed integer of `intSize` bits; `none` stands for a non-nil error. -/
def Atoi (intSize : Nat) (s : GoString) : Option Int :=
  let neg : Bool := s.head? == some '-'
  let digits : GoString :=
    match s with
    | '-' :: rest => rest
    | '+' :: rest => rest
    | _ => s
  if digits.isEmpty || !digits.all Char.isDigit then none
  else
    let v : Int := if neg then -(digitsValue digits : Int) else (digitsValue digits : Int)
    if -(2 : Int) ^ (intSize - 1) ≤ v ∧ v < (2 : Int) ^ (intSize - 1) then some v else none

/-! ## `pkg/models` -/

/-- The record `models.JavaInstallation`. -/
structure JavaInstallation where
  Version : GoString
  MajorVersion : Int
  Path : GoString
  Vendor : GoString
  deriving DecidableEq, Repr

/-! ## `pkg/scanner`: parsing the version banner -/

/-- Removes the literal `lit` from the head of `s`, when `s` starts with it. -/
def cutLiteral : GoString → GoString → Option GoString
  | [], s => some s
  | _ :: _, [] => none
  | l :: lit, c :: s => if l = c then cutLiteral lit s else none

/-- The text of the literal that opens `versionRegex`: the word and the opening quote. -/
def versionOpen : GoString := "version \"".toList

/-- The regexp `version "([^"]+)"` matched at the head of `s`: the literal, then the
longest run of runes other than the quote, which must be non-empty and be closed by a
quote.  The result is the whole match and its one submatch. -/
def matchVersionHere (s : GoString) : Option (GoString × GoString) :=
  match cutLiteral versionOpen s with
  | none => none
  | some rest =>
    let body := rest.takeWhile (fun c => c != '"')
    match rest.dropWhile (fun c => c != '"') with
    | [] => none
    | _ :: _ => if body.isEmpty then none else some (versionOpen ++ body ++ ['"'], body)

/-- The call `versionRegex.FindStringSubmatch`: the leftmost match of the regexp, as the
slice of the whole match and the submatch; the empty slice when nothing matches. -/
def FindStringSubmatch : GoString → List GoString
  | [] => []
  | c :: s =>
    match matchVersionHere (c :: s) with
    | some (whole, sub) => [whole, sub]
    | none => FindStringSubmatch s

/-- The vendor heuristics of `parseVersionOutput`. -/
def classifyVendor (lowerOutput : GoString) : GoString :=
  if Contains lowerOutput "openjdk".toList then "OpenJDK".toList
  else if Contains lowerOutput "java(tm)".toList || Contains lowerOutput "hotspot".toList then
    "Oracle".toList
  else if Contains lowerOutput "zulu".toList then "Azul Zulu".toList
  else "Unknown".toList

/-- The major version derivation of `parseVersionOutput`. -/
def majorOf (P : Platform) (versionStr : GoString) : Int :=
  if HasPrefix versionStr "1.".toList then
    let parts := Split '.' versionStr
    if parts.length ≥ 2 then
      match Atoi P.intSize (parts.getD 1 []) with
      | some val => val
      | none => 0
    else 0
  else
    let parts := Split '.' versionStr
    if parts.length > 0 then
      match Atoi P.intSize (parts.getD 0 []) with
      | some val => val
      | none => 0
    else 0

/-- The function `parseVersionOutput`. -/
def parseVersionOutput (P : Platform) (output installRoot : GoString) :
    Except String JavaInstallation :=
  let submatches := FindStringSubmatch output
  if submatches.length < 2 then .error "could not parse version string"
  else
    let versionStr := submatches.getD 1 []
    let vendor := classifyVendor (ToLower P output)
    let major := majorOf P versionStr
    .ok { Version := versionStr, MajorVersion := major, Path := installRoot, Vendor := vendor }

/-! ### Sample platform for the worked examples

The examples use ASCII paths and banners only, where Go's Unicode tables play no part. -/

/-- A 64-bit POSIX platform: slash-separated clean paths. -/
def posix64 : Platform where
  intSize := 64
  unicodeToLower := id
  foldKey := id
  whiteSpace := fun _ => false
  Dir := fun p =>
    match (p.reverse.dropWhile (fun c => c != '/')).reverse with
    | [] => ['.']
    | ['/'] => ['/']
    | d => d.dropLast
  Base := fun p =>
    match (p.reverse.takeWhile (fun c => c != '/')).reverse with
    | [] => if p.isEmpty then ['.'] else ['/']
    | b => b
  Join := fun d n => d ++ '/' :: n

/-! ### Specification vocabulary for the banner -/

/-- The banner `output` holds, at offset `pre.length`, the token `version`, a space and a
double-quoted string whose content is `body`. -/
def QuotedVersionAt (output pre body : GoString) : Prop :=
  ∃ post, output = pre ++ (versionOpen ++ body ++ '"' :: post) ∧ '"' ∉ body

/-- The dot-separated component that carries the major version: the second one when the
raw version starts with `1.`, the first one otherwise. -/
def majorComponent (versionStr : GoString) : GoString :=
  if "1.".toList <+: versionStr then (Split '.' versionStr).getD 1 []
  else (Split '.' versionStr).getD 0 []

/-- The string `s` without its leading sign, if it has one. -/
def unsignedPart (s : GoString) : GoString :=
  match s with
  | '-' :: rest => rest
  | '+' :: rest => rest
  | _ => s

/-- A numeric string: an optional sign followed by one or more decimal digits. -/
def IsNumeric (s : GoString) : Prop :=
  unsignedPart s ≠ [] ∧ ∀ c ∈ unsignedPart s, c.isDigit = true

/-- The integer that a numeric string denotes. -/
def numericValue (s : GoString) : Int :=
  if s.head? = some '-' then -(digitsValue (unsignedPart s) : Int)
  else (digitsValue (unsignedPart s) : Int)

/-- The integer `v` is a value of Go's `int` on the platform. -/
def FitsInt (P : Platform) (v : Int) : Prop :=
  -(2 : Int) ^ (P.intSize - 1) ≤ v ∧ v < (2 : Int) ^ (P.intSize - 1)

/-- The major version rule as the design document words it: the component read as an
integer when it is numeric, and 0 when it is not. -/
def MajorVersionAsStated (inst : JavaInstallation) : Prop :=
  (IsNumeric (majorComponent inst.Version) →
      inst.MajorVersion = numericValue (majorComponent inst.Version)) ∧
  (¬ IsNumeric (majorComponent inst.Version) → inst.MajorVersion = 0)

/-! ## `pkg/config` -/

/-- The record `config.Config`: the persisted inventory. -/
structure Config where
  CurrentVersion : GoString
  Installations : List JavaInstallation
  deriving DecidableEq, Repr

/-- The loop of `CurrentVersionPath` over the installations that are left. -/
def CurrentVersionPath.scan (version : GoString) : List JavaInstallation → GoString
  | [] => []
  | inst :: rest => if inst.Version = version then inst.Path else CurrentVersionPath.scan version rest

/-- The method `Config.CurrentVersionPath`: the path for the given version, or the empty
string. -/
def Config.CurrentVersionPath (c : Config) (version : GoString) : GoString :=
  CurrentVersionPath.scan version c.Installations

/-! ## `pkg/switcher`, Windows -/

/-- The values of the registry key `HKCU\Environment` that the switch touches; `none`
is a value that does not exist. -/
structure Registry where
  JAVA_HOME : Option GoString
  Path : Option GoString
  deriving DecidableEq, Repr

/-- The registry calls of one switch that fail: opening the key, setting `JAVA_HOME`,
reading `Path` (with an error other than `ErrNotExist`), setting `Path`. -/
structure RegistryFaults where
  openKey : Bool
  setJavaHome : Bool
  getPath : Bool
  setPath : Bool
  deriving DecidableEq, Repr

/-- The constant `javaHomeBin` of the Windows `switchJava`. -/
def javaHomeBin : GoString := "%JAVA_HOME%\\bin".toList

/-- The loop of the Windows `switchJava` over the parts of the old `Path`: the parts it
appends to `newParts`. -/
def keptParts (P : Platform) : List GoString → List GoString
  | [] => []
  | p :: parts =>
    let cleanP := TrimSpace P p
    if cleanP = [] then keptParts P parts
    else if EqualFold P cleanP javaHomeBin then keptParts P parts
    else cleanP :: keptParts P parts

/-- The Windows `switchJava`: the registry after the call and the returned error.  The
closing broadcast only prints a message and is left out. -/
def Windows.switchJava (P : Platform) (f : RegistryFaults) (reg : Registry)
    (javaPath : GoString) : Registry × Except String Unit :=
  if f.openKey then (reg, .error "failed to open registry key")
  else if f.setJavaHome then (reg, .error "failed to set JAVA_HOME")
  else
    let reg1 : Registry := { reg with JAVA_HOME := some javaPath }
    if f.getPath then (reg1, .error "failed to read Path")
    else
      let pathValue := reg1.Path.getD []
      let parts := Split ';' pathValue
      let newParts := javaHomeBin :: keptParts P parts
      let newPathValue := Join ';' newParts
      if f.setPath then (reg1, .error "failed to set Path")
      else ({ reg1 with Path := some newPathValue }, .ok ())

/-- The new `Path` as the design document words it: the home-bin token, then every old
token verbatim except the empty ones and those equal to the home-bin token up to case. -/
def pathAsStated (P : Platform) (pathValue : GoString) : GoString :=
  Join ';' (javaHomeBin ::
    (Split ';' pathValue).filter (fun t => decide (t ≠ []) && !EqualFold P t javaHomeBin))

/-! ## `pkg/switcher`, POSIX -/

/-- What can sit at the fixed link path `~/.jswitch/current`.  Whether a symlink is live
or stale is a fact about its target, which none of the calls of the switch follows. -/
inductive LinkEntry where
  | file
  | dir
  | symlink (target : GoString)
  deriving DecidableEq, Repr

/-- The calls of one POSIX switch that fail: `os.UserHomeDir`, `os.Lstat` (on an entry
that exists), `os.Remove`, and `os.Symlink` (for a reason other than an entry being in
the way). -/
structure LinkFaults where
  userHomeDir : Bool
  lstat : Bool
  remove : Bool
  symlink : Bool
  deriving DecidableEq, Repr

/-- The POSIX `switchJava`: the entry at the link path after the call and the returned
error.  `os.Lstat` returns no error exactly when an entry is there and the call does not
fail; `os.Symlink` fails when an entry is still there.  The closing messages are left
out. -/
def Unix.switchJava (f : LinkFaults) (link : Option LinkEntry) (javaPath : GoString) :
    Option LinkEntry × Except String Unit :=
  if f.userHomeDir then (link, .error "$HOME is not defined")
  else
    let lstatOk : Bool := link.isSome && !f.lstat
    if lstatOk && f.remove then (link, .error "failed to remove existing symlink")
    else
      let link1 : Option LinkEntry := if lstatOk then none else link
      if link1.isSome || f.symlink then (link1, .error "failed to create symlink")
      else (some (.symlink javaPath), .ok ())

/-! ## `pkg/scanner`: walking the directory tree -/

/-- The type bits (`Type()`) of an `fs.DirEntry`: a regular file, a directory, a symbolic link, or
another kind of entry (device, pipe, socket). -/
inductive FileType where
  | regular
  | dir
  | symlink
  | other
  deriving DecidableEq, Repr

/-- The `fs.DirEntry` that the walk hands to its callback. -/
structure DirEntry where
  Name : GoString
  Mode : FileType
  deriving DecidableEq, Repr

/-- The method `DirEntry.IsDir`. -/
def DirEntry.IsDir (d : DirEntry) : Bool := d.Mode == .dir

/-- The kinds of entry that are not directories. -/
inductive LeafType where
  | regular
  | symlink
  | other
  deriving DecidableEq, Repr

/-- The type bits of an entry that is not a directory. -/
def LeafType.toFileType : LeafType → FileType
  | .regular => .regular
  | .symlink => .symlink
  | .other => .other

/-- A directory tree as `filepath.WalkDir` reads it: an entry that is not a directory, or
a directory with the entries `os.ReadDir` returns for it (in its order, sorted by name)
and whether `os.ReadDir` also returned an error. -/
inductive FsNode where
  | leaf (name : GoString) (type : LeafType)
  | dir (name : GoString) (readDirErr : Bool) (children : List FsNode)

/-- The `fs.DirEntry` of a node. -/
def FsNode.entry : FsNode → DirEntry
  | .leaf name type => ⟨name, type.toFileType⟩
  | .dir name _ _ => ⟨name, .dir⟩

/-- The error a walk callback returns: `nil`, `filepath.SkipDir`, or another error. -/
inductive WalkError where
  | nil
  | SkipDir
  | failure (msg : String)
  deriving DecidableEq, Repr

/-- A callback of type `fs.WalkDirFunc` over a state `σ`: it receives the path, the entry
(`none` for Go's nil) and whether the incoming error is non-nil. -/
abbrev WalkDirFunc (σ : Type) := σ → GoString → Option DirEntry → Bool → σ × WalkError

mutual
/-- The recursion `walkDir` of `path/filepath`: the callback on the entry itself, a second
call when the directory cannot be read, then the entries of the directory. -/
def walkDir {σ : Type} (P : Platform) (fn : WalkDirFunc σ) (path : GoString) :
    FsNode → σ → σ × WalkError
  | .leaf name type, s => fn s path (some (FsNode.leaf name type).entry) false
  | .dir name readDirErr children, s =>
    match fn s path (some ⟨name, .dir⟩) false with
    | (s1, .SkipDir) => (s1, .nil)
    | (s1, .failure msg) => (s1, .failure msg)
    | (s1, .nil) =>
      match (if readDirErr then fn s1 path (some ⟨name, .dir⟩) true else (s1, .nil)) with
      | (s2, .SkipDir) => (s2, .nil)
      | (s2, .failure msg) => (s2, .failure msg)
      | (s2, .nil) => walkDirEntries P fn path children s2
/-- The loop of `walkDir` over the entries of a directory; `SkipDir` from an entry ends
the loop. -/
def walkDirEntries {σ : Type} (P : Platform) (fn : WalkDirFunc σ) (path : GoString) :
    List FsNode → σ → σ × WalkError
  | [], s => (s, .nil)
  | d1 :: rest, s =>
    match walkDir P fn (P.Join path d1.entry.Name) d1 s with
    | (s1, .SkipDir) => (s1, .nil)
    | (s1, .failure msg) => (s1, .failure msg)
    | (s1, .nil) => walkDirEntries P fn path rest s1
end

/-- What `os.Stat` and `os.Lstat` find at a scan root. -/
inductive RootStat where
  | notExist
  | lstatFails
  | found (node : FsNode)

/-- The function `filepath.WalkDir`: when `os.Lstat` fails the callback is called once
with the error, otherwise the tree is walked; a final `SkipDir` is not an error. -/
def WalkDir {σ : Type} (P : Platform) (fn : WalkDirFunc σ) (root : GoString)
    (stat : RootStat) (s : σ) : σ × WalkError :=
  let r : σ × WalkError :=
    match stat with
    | .found node => walkDir P fn root node s
    | _ => fn s root none true
  match r with
  | (s1, .SkipDir) => (s1, .nil)
  | (s1, err) => (s1, err)

/-! ## `pkg/scanner`: `ScanSystem` -/

/-- The map `ignoredDirs`: the directory names the scan does not enter. -/
def ignoredDirs (name : GoString) : Bool :=
  name ∈ ["Windows".toList, "ProgramData".toList, "$Recycle.Bin".toList,
    "System Volume Information".toList, ".git".toList, "node_modules".toList]

/-- The function `verifyAndParseJava`.  The child process `exePath -version` is the
oracle `run`: `none` when it cannot be launched or exits with a non-zero status,
otherwise its combined output. -/
def verifyAndParseJava (P : Platform) (run : GoString → Option GoString)
    (exePath installRoot : GoString) : Except String JavaInstallation :=
  match run exePath with
  | none => .error "exit status 1"
  | some output => parseVersionOutput P output installRoot

/-- The variables of `ScanSystem` that its callback updates, and the trace of the child
processes it has launched (executable path and install root of each call of
`verifyAndParseJava`). -/
structure ScanState where
  installations : List JavaInstallation
  seenPaths : List GoString
  launched : List (GoString × GoString)
  deriving DecidableEq, Repr

/-- The callback that `ScanSystem` passes to `filepath.WalkDir`.  The walk hands over a
nil entry only together with an error, so the branch for a nil entry without an error is
never taken. -/
def scanVisit (P : Platform) (run : GoString → Option GoString) : WalkDirFunc ScanState :=
  fun s path d err =>
    if err then (s, .nil)
    else
      match d with
      | none => (s, .nil)
      | some d =>
        if d.IsDir then
          if ignoredDirs d.Name then (s, .SkipDir) else (s, .nil)
        else
          let name := ToLower P d.Name
          if name = "java".toList ∨ name = "java.exe".toList then
            let dir := P.Dir path
            if EqualFold P (P.Base dir) "bin".toList then
              let installPath := P.Dir dir
              if installPath ∈ s.seenPaths then (s, .nil)
              else
                match verifyAndParseJava P run path installPath with
                | .ok inst =>
                  ({ installations := s.installations ++ [inst],
                     seenPaths := installPath :: s.seenPaths,
                     launched := s.launched ++ [(path, installPath)] }, .nil)
                | .error _ =>
                  ({ s with launched := s.launched ++ [(path, installPath)] }, .nil)
            else (s, .nil)
          else (s, .nil)

/-- The loop of `ScanSystem` over the root paths; `fs` is what `os.Stat` and `os.Lstat`
find at each root. -/
def scanRoots (P : Platform) (run : GoString → Option GoString) (fs : GoString → RootStat) :
    List GoString → ScanState → Except String ScanState
  | [], s => .ok s
  | root :: rootPaths, s =>
    match fs root with
    | .notExist => scanRoots P run fs rootPaths s
    | stat =>
      match WalkDir P (scanVisit P run) root stat s with
      | (s1, .nil) => scanRoots P run fs rootPaths s1
      | (_, _) => .error "error walking path"

/-- The function `ScanSystem`. -/
def ScanSystem (P : Platform) (run : GoString → Option GoString) (fs : GoString → RootStat)
    (rootPaths : List GoString) : Except String (List JavaInstallation) :=
  (scanRoots P run fs rootPaths ⟨[], [], []⟩).map (fun s => s.installations)

/-! ### Specification vocabulary for the scan -/

mutual
/-- The entries on which the walk of a tree calls the callback of `ScanSystem` without an
error, in the order of the calls, each with its path. -/
def walkEntries (P : Platform) (path : GoString) : FsNode → List (GoString × DirEntry)
  | .leaf name type => [(path, (FsNode.leaf name type).entry)]
  | .dir name _ children =>
    (path, ⟨name, .dir⟩) ::
      (if ignoredDirs name then []
       else walkEntriesList P path children)
/-- The entries of the trees of a directory, one tree after the other. -/
def walkEntriesList (P : Platform) (path : GoString) : List FsNode → List (GoString × DirEntry)
  | [] => []
  | d1 :: rest =>
    walkEntries P (P.Join path d1.entry.Name) d1 ++ walkEntriesList P path rest
end

/-- The entries that a scan of the root paths visits, in order. -/
def scanEntries (P : Platform) (fs : GoString → RootStat) :
    List GoString → List (GoString × DirEntry)
  | [] => []
  | root :: rootPaths =>
    match fs root with
    | .found node => walkEntries P root node ++ scanEntries P fs rootPaths
    | _ => scanEntries P fs rootPaths

/-- The entry `d` at `path` is a candidate of the scan: it is not a directory, its
lower-cased name is `java` or `java.exe`, and the base name of its directory equals `bin`
up to case. -/
def IsCandidate (P : Platform) (path : GoString) (d : DirEntry) : Prop :=
  d.IsDir = false ∧
    (ToLower P d.Name = "java".toList ∨ ToLower P d.Name = "java.exe".toList) ∧
    EqualFold P (P.Base (P.Dir path)) "bin".toList = true

/-- The install root of a candidate at `path`: the parent of its directory. -/
def installRootOf (P : Platform) (path : GoString) : GoString := P.Dir (P.Dir path)

/-- The candidate rule as the design document words it, for a launcher name `exeName`: a
regular file whose name equals the launcher name up to case, in a directory whose base
name equals `bin` up to case. -/
def IsCandidateAsStated (P : Platform) (exeName path : GoString) (d : DirEntry) : Prop :=
  d.Mode = .regular ∧ EqualFold P d.Name exeName = true ∧
    EqualFold P (P.Base (P.Dir path)) "bin".toList = true

/-- The state after the callback of `ScanSystem` has been called on each of `entries`. -/
def visitAll (P : Platform) (run : GoString → Option GoString)
    (entries : List (GoString × DirEntry)) (s : ScanState) : ScanState :=
  entries.foldl (fun s e => (scanVisit P run s e.1 (some e.2) false).1) s

/-- The verification of the executable at `path` for the install root `root` succeeds. -/
def Verifies (P : Platform) (run : GoString → Option GoString) (path root : GoString) : Prop :=
  ∃ inst, verifyAndParseJava P run path root = .ok inst

/-- The facts that hold of the state of a scan after it has visited the entries `pre`,
starting from the empty state. -/
structure ScanInv (P : Platform) (run : GoString → Option GoString)
    (pre : List (GoString × DirEntry)) (s : ScanState) : Prop where
  seen_iff : ∀ R, R ∈ s.seenPaths ↔
    ∃ e ∈ pre, IsCandidate P e.1 e.2 ∧ installRootOf P e.1 = R ∧ Verifies P run e.1 R
  seen_paths : ∀ R, R ∈ s.seenPaths ↔ R ∈ s.installations.map (fun i => i.Path)
  nodup : (s.installations.map (fun i => i.Path)).Nodup
  successes : s.installations =
    s.launched.filterMap (fun x => (verifyAndParseJava P run x.1 x.2).toOption)
  launched_cand : ∀ x ∈ s.launched, ∃ e ∈ pre, IsCandidate P e.1 e.2 ∧ x = (e.1, installRootOf P e.1)
  success_seen : ∀ x ∈ s.launched, Verifies P run x.1 x.2 → x.2 ∈ s.seenPaths
  after_success : s.launched.Pairwise (fun x y => Verifies P run x.1 x.2 → y.2 ≠ x.2)

/-! ### Sample trees for the worked examples -/

/-- The tree `/opt` with one JDK whose `bin` holds both `java` and `java.exe`, and a
second `bin/java` under a `.git` directory. -/
def sampleTree : FsNode :=
  .dir "opt".toList false
    [.dir ".git".toList false [.dir "bin".toList false [.leaf "java".toList .regular]],
     .dir "jdk".toList false
       [.dir "bin".toList false
          [.leaf "java".toList .regular, .leaf "java.exe".toList .regular,
           .leaf "javac".toList .regular]]]

/-- A file system with `sampleTree` at `/opt` and nothing elsewhere. -/
def sampleFs : GoString → RootStat :=
  fun p => if p = "/opt".toList then .found sampleTree else .notExist

/-- Child processes where `/opt/jdk/bin/java` cannot be run and `/opt/jdk/bin/java.exe`
prints an OpenJDK 17 banner. -/
def sampleRun : GoString → Option GoString :=
  fun p =>
    if p = "/opt/jdk/bin/java.exe".toList then some "openjdk version \"17.0.2\"".toList
    else none

/-! ### Specification vocabulary for the pruning -/

/-- One call of a walk callback: the path, the entry, and whether an error is passed. -/
abbrev WalkCall := GoString × Option DirEntry × Bool

/-- The callback `fn` made to record each of its calls. -/
def recordCalls {σ : Type} (fn : WalkDirFunc σ) : WalkDirFunc (σ × List WalkCall) :=
  fun sl path d err => (((fn sl.1 path d err).1, sl.2 ++ [(path, d, err)]), (fn sl.1 path d err).2)

mutual
/-- The calls that the walk of a tree makes to the callback of `ScanSystem`, in order. -/
def walkCalls (P : Platform) (path : GoString) : FsNode → List WalkCall
  | .leaf name type => [(path, some (FsNode.leaf name type).entry, false)]
  | .dir name readDirErr children =>
    (path, some ⟨name, .dir⟩, false) ::
      (if ignoredDirs name then []
       else (if readDirErr then [(path, some ⟨name, .dir⟩, true)] else []) ++
         walkCallsList P path children)
/-- The calls for the trees of a directory, one tree after the other. -/
def walkCallsList (P : Platform) (path : GoString) : List FsNode → List WalkCall
  | [] => []
  | d1 :: rest => walkCalls P (P.Join path d1.entry.Name) d1 ++ walkCallsList P path rest
end

mutual
/-- Every entry of a tree, pruned or not, with the names of the directories of the tree
that lie above it (`above` for the tree itself) and with its path. -/
def treeEntries (P : Platform) (path : GoString) (above : List GoString) :
    FsNode → List (List GoString × GoString × DirEntry)
  | .leaf name type => [(above, path, (FsNode.leaf name type).entry)]
  | .dir name _ children =>
    (above, path, ⟨name, .dir⟩) :: treeEntriesList P path (name :: above) children
/-- The entries of the trees of a directory, one tree after the other. -/
def treeEntriesList (P : Platform) (path : GoString) (above : List GoString) :
    List FsNode → List (List GoString × GoString × DirEntry)
  | [] => []
  | d1 :: rest =>
    treeEntries P (P.Join path d1.entry.Name) above d1 ++ treeEntriesList P path above rest
end

/-- A slash-separated path lies at or beneath a directory whose name is in the
ignore-set: one of its components is such a name. -/
def UnderIgnoredDir (path : GoString) : Prop :=
  ∃ name ∈ Split '/' path, ignoredDirs name = true

/-- A file system that holds, at `/srv/node_modules/jdk`, a JDK with `bin/java`. -/
def nodeModulesFs : GoString → RootStat :=
  fun p =>
    if p = "/srv/node_modules/jdk".toList then
      .found (.dir "jdk".toList false [.dir "bin".toList false [.leaf "java".toList .regular]])
    else .notExist

/-- Child processes where every executable prints an OpenJDK 17 banner. -/
def openjdkRun : GoString → Option GoString :=
  fun _ => some "openjdk version \"17.0.2\"".toList

/-! ## `cmd/jswitch`: the commands

A command is modelled by the trace of what it does to the outside, given the outcomes of
the calls it makes. -/

/-- The outcomes of the calls that the commands make: `config.LoadConfig`,
`config.SaveConfig` (the error it returns for a given inventory, `none` for nil),
`switcher.Switch` (the error it returns for a given path), `scanner.ScanSystem`, the
constant `runtime.GOOS` and `os.UserHomeDir`. -/
structure CommandEnv where
  LoadConfig : Except String Config
  SaveConfig : Config → Option String
  Switch : GoString → Option String
  ScanSystem : List GoString → Except String (List JavaInstallation)
  GOOS : GoString
  UserHomeDir : GoString

/-- What a command does to the outside: a message on standard output or standard error,
the lines it hands to the tabwriter, a call of `config.SaveConfig` with its argument and
the error it returned, a call of `switcher.Switch` with its argument and the error it
returned. -/
inductive Effect where
  | stdout (msg : String)
  | stderr (msg : String)
  | table (lines : List String)
  | saveConfig (cfg : Config) (err : Option String)
  | switch (javaPath : GoString) (err : Option String)
  deriving DecidableEq, Repr

/-- The loop of `handleUse` over the installations: the `CurrentVersion` it sets when it
finds the version, `none` when `found` stays false. -/
def handleUse.find (version : GoString) : List JavaInstallation → Option GoString
  | [] => none
  | inst :: rest => if inst.Version = version then some inst.Version else handleUse.find version rest

/-- The function `handleUse`. -/
def handleUse (env : CommandEnv) (version : GoString) : List Effect :=
  match env.LoadConfig with
  | .error err => [.stderr ("Error loading config: " ++ err ++ "\n")]
  | .ok cfg =>
    match handleUse.find version cfg.Installations with
    | none =>
      [.stdout ("Version " ++ String.mk version ++
        " not found. Run 'jswitch list' to see options.\n")]
    | some current =>
      let cfg : Config := { cfg with CurrentVersion := current }
      match env.SaveConfig cfg with
      | some err => [.saveConfig cfg (some err), .stderr ("Error saving config: " ++ err ++ "\n")]
      | none =>
        [.saveConfig cfg none,
         .stdout ("Target set to Java " ++ String.mk version ++ ".\n"),
         .switch (cfg.CurrentVersionPath version) (env.Switch (cfg.CurrentVersionPath version))] ++
        (match env.Switch (cfg.CurrentVersionPath version) with
          | some err => [.stderr ("Error switching system environment: " ++ err ++ "\n")]
          | none => [])

/-- The function `handleList`. -/
def handleList (env : CommandEnv) : List Effect :=
  match env.LoadConfig with
  | .error err => [.stderr ("Error loading config: " ++ err ++ "\n")]
  | .ok cfg =>
    if cfg.Installations.length = 0 then
      [.stdout "No installations found. Run 'jswitch scan' first.\n"]
    else
      [.table ("CURRENT\tVENDOR\tVERSION\tPATH\n" ::
        cfg.Installations.map (fun inst =>
          (if inst.Version = cfg.CurrentVersion then "*" else " ") ++ "\t" ++
            String.mk inst.Vendor ++ "\t" ++ String.mk inst.Version ++ "\t" ++
            String.mk inst.Path ++ "\n"))]

/-- The paths that `handleScan` scans: the custom paths when there are any, otherwise the
default paths of the operating system. -/
def pathsToScan (env : CommandEnv) (customPaths : List GoString) : List GoString :=
  if customPaths.length > 0 then customPaths
  else if env.GOOS = "windows".toList then
    ["C:\\Program Files\\Java".toList, "C:\\Program Files (x86)\\Java".toList]
  else
    ["/usr/lib/jvm".toList, "/usr/java".toList, "/Library/Java/JavaVirtualMachines".toList]

/-- The function `handleScan`. -/
def handleScan (P : Platform) (env : CommandEnv) (customPaths : List GoString) : List Effect :=
  let paths := pathsToScan env customPaths
  let scanning : List Effect :=
    [.stdout ("Scanning paths: [" ++ " ".intercalate (paths.map String.mk) ++ "]\n")]
  let installations : List JavaInstallation :=
    match env.ScanSystem paths with
    | .ok found => found
    | .error _ => []
  let scanError : List Effect :=
    match env.ScanSystem paths with
    | .ok _ => []
    | .error err => [.stderr ("Error scanning: " ++ err ++ "\n")]
  let cfg : Config :=
    match env.LoadConfig with
    | .ok cfg => cfg
    | .error _ => { CurrentVersion := [], Installations := [] }
  scanning ++ scanError ++
    (if installations.length > 0 then
      let cfg : Config := { cfg with Installations := installations }
      .stdout ("Found " ++ toString installations.length ++ " Java installations.\n") ::
        (match env.SaveConfig cfg with
          | some err =>
            [.saveConfig cfg (some err), .stderr ("Error saving config: " ++ err ++ "\n")]
          | none =>
            [.saveConfig cfg none,
             .stdout ("Config saved to " ++
               String.mk (P.Join (P.Join env.UserHomeDir ".jswitch".toList)
                 "config.json".toList) ++ "\n")])
    else [.stdout "No Java installations found.\n"])

/-! ### Specification vocabulary for the commands -/

/-- The inventory that a trace leaves persisted: the argument of its last call of
`config.SaveConfig` that returned no error, or `before` when there is none. -/
def persistedAfter (before : Option Config) : List Effect → Option Config
  | [] => before
  | .saveConfig cfg none :: rest => persistedAfter (some cfg) rest
  | _ :: rest => persistedAfter before rest

/-- The messages that a trace writes to standard error. -/
def stderrOf : List Effect → List String
  | [] => []
  | .stderr msg :: rest => msg :: stderrOf rest
  | _ :: rest => stderrOf rest

/-- The calls of `config.SaveConfig` in a trace: argument and returned error. -/
def savesOf : List Effect → List (Config × Option String)
  | [] => []
  | .saveConfig cfg err :: rest => (cfg, err) :: savesOf rest
  | _ :: rest => savesOf rest

/-! ### Sample command environments for the worked examples -/

/-- An inventory with a JDK 8 and two installations that report version 17.0.2; the
current version is 1.8.0_202. -/
def sampleConfig : Config :=
  { CurrentVersion := "1.8.0_202".toList,
    Installations :=
      [⟨"1.8.0_202".toList, 8, "/opt/jdk8".toList, "Oracle".toList⟩,
       ⟨"17.0.2".toList, 17, "/opt/jdk17".toList, "OpenJDK".toList⟩,
       ⟨"17.0.2".toList, 17, "/opt/zulu17".toList, "Azul Zulu".toList⟩] }

/-- An environment where the inventory loads as `sampleConfig`, saving succeeds, the
switch fails, and the scan finds nothing. -/
def sampleEnv : CommandEnv :=
  { LoadConfig := .ok sampleConfig
    SaveConfig := fun _ => none
    Switch := fun _ => some "failed to create symlink"
    ScanSystem := fun _ => .ok []
    GOOS := "linux".toList
    UserHomeDir := "/home/u".toList }

/-- An environment where the persisted inventory is malformed, the scan finds one JDK,
and saving succeeds. -/
def malformedEnv : CommandEnv :=
  { LoadConfig := .error "failed to parse config file: unexpected end of JSON input"
    SaveConfig := fun _ => none
    Switch := fun _ => none
    ScanSystem := fun _ => .ok [⟨"17.0.2".toList, 17, "/opt/jdk17".toList, "OpenJDK".toList⟩]
    GOOS := "linux".toList
    UserHomeDir := "/home/u".toList }

/-! ## `pkg/tui`: the selection menu -/

/-- The record `tui.Model`. -/
structure Model where
  installations : List JavaInstallation
  cursor : Int
  activeID : GoString
  quitting : Bool
  SelectedID : GoString
  deriving DecidableEq, Repr

/-- A message for `Update`: a `tea.KeyMsg`, given by its `String()`, or any other
message. -/
inductive Msg where
  | key (name : GoString)
  | other
  deriving DecidableEq, Repr

/-- The command that `Update` returns: nil or `tea.Quit`. -/
inductive Cmd where
  | nil
  | Quit
  deriving DecidableEq, Repr

/-- The function `NewModel`. -/
def NewModel (installations : List JavaInstallation) (activeID : GoString) : Model :=
  { installations := installations, cursor := 0, activeID := activeID, quitting := false,
    SelectedID := [] }

/-- The method `Model.Update`; `none` is the run-time panic of an index out of range. -/
def Model.Update (m : Model) (msg : Msg) : Option (Model × Cmd) :=
  match msg with
  | .other => some (m, .nil)
  | .key name =>
    if name = "ctrl+c".toList ∨ name = "q".toList then
      some ({ m with quitting := true }, .Quit)
    else if name = "up".toList ∨ name = "k".toList then
      if m.cursor > 0 then some ({ m with cursor := m.cursor - 1 }, .nil)
      else some ({ m with cursor := (m.installations.length : Int) - 1 }, .nil)
    else if name = "down".toList ∨ name = "j".toList then
      if m.cursor < (m.installations.length : Int) - 1 then
        some ({ m with cursor := m.cursor + 1 }, .nil)
      else some ({ m with cursor := 0 }, .nil)
    else if name = "enter".toList then
      if m.installations.length > 0 then
        if 0 ≤ m.cursor then
          match m.installations.get? m.cursor.toNat with
          | some inst => some ({ m with SelectedID := inst.Version }, .Quit)
          | none => none
        else none
      else some (m, .nil)
    else some (m, .nil)

/-- A menu over the installations of `sampleConfig`, with the cursor on the last row. -/
def sampleModel : Model :=
  { NewModel sampleConfig.Installations sampleConfig.CurrentVersion with cursor := 2 }

/-! ## `pkg/config`: the persisted document

For the round trip through the backing file a Go string is given unit by unit, as Go's
UTF-8 decoder steps through it, so that bytes which are not valid UTF-8 are visible.  The
backing file is modelled by the JSON value it holds: the layout of the text plays no
part. -/

/-- One step of Go's UTF-8 decoder over a string: a validly encoded rune, or one byte that
is not part of a valid encoding. -/
inductive GoUnit where
  | rune (c : Char)
  | invalid (byte : Nat)
  deriving DecidableEq, Repr

/-- A Go string as it is held in memory, unit by unit. -/
abbrev RawString := List GoUnit

/-- The runes that Go reads from a string: U+FFFD for each invalid byte.  This is the
`GoString` of the string. -/
def runesOf (s : RawString) : GoString :=
  s.map (fun u =>
    match u with
    | .rune c => c
    | .invalid _ => Char.ofNat 0xFFFD)

/-- The Go string that encodes a sequence of runes. -/
def rawOf (s : GoString) : RawString := s.map GoUnit.rune

/-- The record `models.JavaInstallation`, with its strings unit by unit. -/
structure RawInstallation where
  Version : RawString
  MajorVersion : Int
  Path : RawString
  Vendor : RawString
  deriving DecidableEq, Repr

/-- The record `config.Config`, with its strings unit by unit; `none` is the nil slice. -/
structure RawConfig where
  CurrentVersion : RawString
  Installations : Option (List RawInstallation)
  deriving DecidableEq, Repr

/-- The inventory as the rest of the development sees it. -/
def RawConfig.view (c : RawConfig) : Config :=
  { CurrentVersion := runesOf c.CurrentVersion
    Installations := (c.Installations.getD []).map (fun i =>
      { Version := runesOf i.Version, MajorVersion := i.MajorVersion,
        Path := runesOf i.Path, Vendor := runesOf i.Vendor }) }

/-- A JSON value.  A number is an integer literal with its value, or a literal with a
fraction or an exponent; a string is a sequence of runes. -/
inductive Json where
  | null
  | bool (b : Bool)
  | int (n : Int)
  | real
  | str (s : GoString)
  | arr (items : List Json)
  | obj (members : List (GoString × Json))

/-- What `json.Marshal` writes for an installation: the members in the order of the
fields, under the names of the `json` tags; a string is coerced to valid UTF-8. -/
def marshalInstallation (i : RawInstallation) : Json :=
  .obj [("version".toList, .str (runesOf i.Version)),
        ("major_version".toList, .int i.MajorVersion),
        ("path".toList, .str (runesOf i.Path)),
        ("vendor".toList, .str (runesOf i.Vendor))]

/-- The call `json.MarshalIndent(cfg, "", "  ")`; a nil slice is written as `null`. -/
def MarshalIndent (cfg : RawConfig) : Json :=
  .obj [("current_version".toList, .str (runesOf cfg.CurrentVersion)),
        ("installations".toList,
          match cfg.Installations with
          | none => .null
          | some l => .arr (l.map marshalInstallation))]

/-- Decoding a JSON value into a string field: a string is stored, `null` leaves the
field as it is, anything else is an `UnmarshalTypeError`. -/
def unmarshalString (v : Json) (old : RawString) : Except String RawString :=
  match v with
  | .str s => .ok (rawOf s)
  | .null => .ok old
  | _ => .error "json: cannot unmarshal into Go value of type string"

/-- Decoding a JSON value into an `int` field: an integer literal that fits is stored,
`null` leaves the field as it is, anything else is an `UnmarshalTypeError`. -/
def unmarshalInt (P : Platform) (v : Json) (old : Int) : Except String Int :=
  match v with
  | .int n =>
    if -(2 : Int) ^ (P.intSize - 1) ≤ n ∧ n < (2 : Int) ^ (P.intSize - 1) then .ok n
    else .error "json: cannot unmarshal number into Go value of type int"
  | .null => .ok old
  | _ => .error "json: cannot unmarshal into Go value of type int"

/-- Decoding the members of a JSON object into an installation, one after the other: a
member goes to the field whose name it equals up to case, and is skipped when there is
none. -/
def unmarshalInstallationMembers (P : Platform) :
    List (GoString × Json) → RawInstallation → Except String RawInstallation
  | [], inst => .ok inst
  | (key, v) :: rest, inst =>
    if EqualFold P key "version".toList then
      match unmarshalString v inst.Version with
      | .ok s => unmarshalInstallationMembers P rest { inst with Version := s }
      | .error e => .error e
    else if EqualFold P key "major_version".toList then
      match unmarshalInt P v inst.MajorVersion with
      | .ok n => unmarshalInstallationMembers P rest { inst with MajorVersion := n }
      | .error e => .error e
    else if EqualFold P key "path".toList then
      match unmarshalString v inst.Path with
      | .ok s => unmarshalInstallationMembers P rest { inst with Path := s }
      | .error e => .error e
    else if EqualFold P key "vendor".toList then
      match unmarshalString v inst.Vendor with
      | .ok s => unmarshalInstallationMembers P rest { inst with Vendor := s }
      | .error e => .error e
    else unmarshalInstallationMembers P rest inst

/-- Decoding a JSON value into an installation that starts as the zero value. -/
def unmarshalInstallation (P : Platform) (v : Json) : Except String RawInstallation :=
  match v with
  | .obj members => unmarshalInstallationMembers P members ⟨[], 0, [], []⟩
  | .null => .ok ⟨[], 0, [], []⟩
  | _ => .error "json: cannot unmarshal into Go value of type models.JavaInstallation"

/-- Decoding the items of a JSON array into the elements of a fresh slice. -/
def unmarshalItems (P : Platform) : List Json → Except String (List RawInstallation)
  | [] => .ok []
  | v :: rest =>
    match unmarshalInstallation P v with
    | .error e => .error e
    | .ok inst =>
      match unmarshalItems P rest with
      | .error e => .error e
      | .ok l => .ok (inst :: l)

/-- Decoding the members of a JSON object into an inventory, one after the other.  An
array is decoded into a fresh slice: a document that repeats the member `installations`
is decoded as if only the last one were there. -/
def unmarshalConfigMembers (P : Platform) :
    List (GoString × Json) → RawConfig → Except String RawConfig
  | [], cfg => .ok cfg
  | (key, v) :: rest, cfg =>
    if EqualFold P key "current_version".toList then
      match unmarshalString v cfg.CurrentVersion with
      | .ok s => unmarshalConfigMembers P rest { cfg with CurrentVersion := s }
      | .error e => .error e
    else if EqualFold P key "installations".toList then
      match v with
      | .null => unmarshalConfigMembers P rest { cfg with Installations := none }
      | .arr items =>
        match unmarshalItems P items with
        | .ok l => unmarshalConfigMembers P rest { cfg with Installations := some l }
        | .error e => .error e
      | _ => .error "json: cannot unmarshal into Go value of type []models.JavaInstallation"
    else unmarshalConfigMembers P rest cfg

/-- The call `json.Unmarshal(data, &cfg)` on a JSON value, with `cfg` the zero value. -/
def Unmarshal (P : Platform) (v : Json) : Except String RawConfig :=
  match v with
  | .obj members => unmarshalConfigMembers P members ⟨[], none⟩
  | .null => .ok ⟨[], none⟩
  | _ => .error "json: cannot unmarshal into Go value of type config.Config"

/-- The backing file `~/.jswitch/config.json`: absent, a text that is not JSON, or a JSON
value. -/
inductive FileState where
  | absent
  | notJson
  | json (doc : Json)

/-- The calls of the config store that fail: `os.UserHomeDir`, `os.ReadFile` (with an
error other than the file not existing), `os.MkdirAll`, and `os.WriteFile`, which then
leaves some state of the file behind. -/
structure StoreFaults where
  userHomeDir : Bool
  readFile : Bool
  mkdirAll : Bool
  writeFile : Option FileState

/-- The function `LoadConfig`. -/
def LoadConfig (P : Platform) (f : StoreFaults) (file : FileState) : Except String RawConfig :=
  if f.userHomeDir then .error "could not find user home directory"
  else if f.readFile then .error "failed to read config file"
  else
    match file with
    | .absent => .ok { CurrentVersion := [], Installations := some [] }
    | .notJson => .error "failed to parse config file"
    | .json doc =>
      match Unmarshal P doc with
      | .error e => .error ("failed to parse config file: " ++ e)
      | .ok cfg => .ok cfg

/-- The function `SaveConfig`: the backing file after the call and the returned error. -/
def SaveConfig (f : StoreFaults) (cfg : RawConfig) (file : FileState) :
    FileState × Except String Unit :=
  if f.userHomeDir then (file, .error "could not find user home directory")
  else if f.mkdirAll then (file, .error "failed to create config directory")
  else
    match f.writeFile with
    | some left => (left, .error "failed to write config file")
    | none => (.json (MarshalIndent cfg), .ok ())

/-! ### Specification vocabulary for the round trip -/

/-- A Go string after its coercion to valid UTF-8: each invalid byte replaced by the
rune U+FFFD. -/
def toValidUTF8 (s : RawString) : RawString := rawOf (runesOf s)

/-- An installation with every string coerced to valid UTF-8. -/
def coerceInstallation (i : RawInstallation) : RawInstallation :=
  { Version := toValidUTF8 i.Version, MajorVersion := i.MajorVersion,
    Path := toValidUTF8 i.Path, Vendor := toValidUTF8 i.Vendor }

/-- An inventory with every string coerced to valid UTF-8. -/
def coerceConfig (cfg : RawConfig) : RawConfig :=
  { CurrentVersion := toValidUTF8 cfg.CurrentVersion
    Installations := cfg.Installations.map (fun l => l.map coerceInstallation) }

/-- A Go string that is valid UTF-8: it has no invalid byte. -/
def IsValidUTF8 (s : RawString) : Prop := ∀ u ∈ s, ∃ c, u = GoUnit.rune c

/-- Every string of the inventory is valid UTF-8. -/
def ValidStrings (cfg : RawConfig) : Prop :=
  IsValidUTF8 cfg.CurrentVersion ∧
    ∀ l, cfg.Installations = some l → ∀ i ∈ l,
      IsValidUTF8 i.Version ∧ IsValidUTF8 i.Path ∧ IsValidUTF8 i.Vendor

/-- Every major version of the inventory is a value of Go's `int`. -/
def MajorsFit (P : Platform) (cfg : RawConfig) : Prop :=
  ∀ l, cfg.Installations = some l → ∀ i ∈ l, FitsInt P i.MajorVersion

/-- No call of the config store fails. -/
def noStoreFaults : StoreFaults :=
  { userHomeDir := false, readFile := false, mkdirAll := false, writeFile := none }

/-- An inventory with one installation whose path ends in the byte 0xFF, which is not
valid UTF-8. -/
def latin1Config : RawConfig :=
  { CurrentVersion := rawOf "17.0.2".toList
    Installations := some
      [⟨rawOf "17.0.2".toList, 17, rawOf "/opt/jdk".toList ++ [.invalid 255],
        rawOf "OpenJDK".toList⟩] }

theorem HasPrefix_iff (s p : GoString) : HasPrefix s p = true ↔ p <+: s := by
  induction s generalizing p with
  | nil => cases p <;> simp [HasPrefix]
  | cons c s ih =>
    cases p with
    | nil => simp [HasPrefix]
    | cons q ps =>
      simp only [HasPrefix, Bool.and_eq_true, beq_iff_eq, ih, List.cons_prefix_cons]
      constructor
      · rintro ⟨rfl, h⟩; exact ⟨rfl, h⟩
      · rintro ⟨rfl, h⟩; exact ⟨rfl, h⟩

theorem Contains_iff (s sub : GoString) : Contains s sub = true ↔ sub <:+: s := by
  induction s with
  | nil =>
    simp only [Contains, HasPrefix_iff]
    simp [List.prefix_nil, List.infix_nil]
  | cons c s ih =>
    simp only [Contains, Bool.or_eq_true, HasPrefix_iff, ih, List.infix_cons_iff]

theorem Contains_map_of_infix (f : Char → Char) (w s : GoString) (h : w <:+: s) :
    Contains (s.map f) (w.map f) = true := by
  rw [Contains_iff]
  obtain ⟨a, b, rfl⟩ := h
  exact ⟨a.map f, b.map f, by simp⟩

theorem cutLiteral_eq_some (lit s rest : GoString) :
    cutLiteral lit s = some rest ↔ s = lit ++ rest := by
  induction lit generalizing s with
  | nil => simp [cutLiteral, eq_comm]
  | cons l lit ih =>
    cases s with
    | nil => simp [cutLiteral]
    | cons c s =>
      simp only [cutLiteral, List.cons_append, List.cons.injEq]
      by_cases hlc : l = c
      · simp [hlc, ih]
      · simp [hlc, Ne.symm hlc]

theorem takeWhile_dropWhile_quote (body post : GoString) (h : '"' ∉ body) :
    (body ++ '"' :: post).takeWhile (fun c => c != '"') = body ∧
    (body ++ '"' :: post).dropWhile (fun c => c != '"') = '"' :: post := by
  induction body with
  | nil => simp
  | cons b body ih =>
    have hb : b ≠ '"' := fun e => h (by simp [e])
    have h2 : '"' ∉ body := fun e => h (by simp [e])
    have hb2 : (b != '"') = true := by simp [hb]
    rw [List.cons_append, List.takeWhile_cons, List.dropWhile_cons, hb2]
    simp [ih h2]

theorem dropWhile_quote_head (rest : GoString) (c : Char) (post : GoString)
    (h : rest.dropWhile (fun c => c != '"') = c :: post) : c = '"' := by
  induction rest with
  | nil => simp at h
  | cons r rest ih =>
    by_cases hr : r = '"'
    · subst hr
      rw [List.dropWhile_cons] at h
      simp at h
      exact h.1.symm
    · have hr2 : (r != '"') = true := by simp [hr]
      rw [List.dropWhile_cons, hr2] at h
      exact ih h

theorem takeWhile_no_quote (rest : GoString) : '"' ∉ rest.takeWhile (fun c => c != '"') := by
  intro h
  have := List.mem_takeWhile_imp h
  simp at this


theorem quoted_iff (rest body : GoString) :
    (∃ post, rest = body ++ '"' :: post ∧ '"' ∉ body) ↔
      (rest.dropWhile (fun c => c != '"') ≠ [] ∧ rest.takeWhile (fun c => c != '"') = body) := by
  constructor
  · rintro ⟨post, rfl, hb⟩
    have := takeWhile_dropWhile_quote body post hb
    simp [this.1, this.2]
  · rintro ⟨hd, rfl⟩
    cases hdw : rest.dropWhile (fun c => c != '"') with
    | nil => exact absurd hdw hd
    | cons c post =>
      have hc := dropWhile_quote_head rest c post hdw
      subst hc
      refine ⟨post, ?_, takeWhile_no_quote rest⟩
      rw [← hdw, List.takeWhile_append_dropWhile]

theorem matchVersionHere_eq_some (s whole body : GoString) :
    matchVersionHere s = some (whole, body) ↔
      (QuotedVersionAt s [] body ∧ body ≠ [] ∧ whole = versionOpen ++ body ++ ['"']) := by
  unfold matchVersionHere QuotedVersionAt
  cases hcut : cutLiteral versionOpen s with
  | none =>
    simp only [false_iff, reduceCtorEq]
    rintro ⟨⟨post, hs, -⟩, -⟩
    have : cutLiteral versionOpen s = some (body ++ '"' :: post) := by
      rw [cutLiteral_eq_some, hs]; simp
    rw [this] at hcut; cases hcut
  | some rest =>
    rw [cutLiteral_eq_some] at hcut
    subst hcut
    have key := quoted_iff rest
    simp only [List.nil_append, List.append_assoc, List.append_cancel_left_eq]
    cases hdw : rest.dropWhile (fun c => c != '"') with
    | nil =>
      simp only [false_iff, reduceCtorEq]
      rintro ⟨⟨post, hs, hb⟩, -⟩
      have := (key body).1 ⟨post, hs, hb⟩
      exact this.1 hdw
    | cons c post =>
      have hne : rest.dropWhile (fun c => c != '"') ≠ [] := by simp [hdw]
      by_cases hemp : rest.takeWhile (fun c => c != '"') = []
      · simp only [hemp, List.isEmpty_nil, if_true, false_iff, reduceCtorEq]
        rintro ⟨h1, h2, -⟩
        have := ((key body).1 h1).2
        exact h2 (this.symm.trans hemp)
      · have hie : (rest.takeWhile (fun c => c != '"')).isEmpty = false := by
          cases h : rest.takeWhile (fun c => c != '"') with
          | nil => exact absurd h hemp
          | cons _ _ => rfl
        simp only [hie, Bool.false_eq_true, if_false, Option.some.injEq, Prod.mk.injEq]
        constructor
        · rintro ⟨rfl, rfl⟩
          exact ⟨(key _).2 ⟨hne, rfl⟩, hemp, by simp⟩
        · rintro ⟨h1, -, rfl⟩
          have := ((key body).1 h1).2
          subst this
          simp

theorem matchVersionHere_eq_none (s : GoString) :
    matchVersionHere s = none ↔ ∀ body, QuotedVersionAt s [] body → body = [] := by
  constructor
  · intro h body hq
    by_contra hb
    have := (matchVersionHere_eq_some s _ body).2 ⟨hq, hb, rfl⟩
    rw [h] at this; cases this
  · intro h
    cases hm : matchVersionHere s with
    | none => rfl
    | some p =>
      obtain ⟨whole, body⟩ := p
      have := (matchVersionHere_eq_some s whole body).1 hm
      exact absurd (h body this.1) this.2.1

theorem QuotedVersionAt_cons (c : Char) (s pre body : GoString) :
    QuotedVersionAt (c :: s) (c :: pre) body ↔ QuotedVersionAt s pre body := by
  unfold QuotedVersionAt
  simp

theorem QuotedVersionAt_nil (pre body : GoString) : ¬ QuotedVersionAt [] pre body := by
  rintro ⟨post, h, -⟩
  have := congrArg List.length h
  simp [versionOpen] at this
  omega

theorem QuotedVersionAt_head (c : Char) (s pre body : GoString)
    (h : QuotedVersionAt (c :: s) pre body) (hp : pre ≠ []) :
    ∃ pre2, pre = c :: pre2 ∧ QuotedVersionAt s pre2 body := by
  cases pre with
  | nil => exact absurd rfl hp
  | cons p pre2 =>
    obtain ⟨post, hs, hb⟩ := h
    simp only [List.cons_append, List.cons.injEq] at hs
    obtain ⟨rfl, hs⟩ := hs
    exact ⟨pre2, rfl, post, hs, hb⟩

/-- What `FindStringSubmatch` returns: nothing when no non-empty quoted version occurs,
otherwise the leftmost occurrence. -/
theorem FindStringSubmatch_spec (output : GoString) :
    (FindStringSubmatch output = [] ∧
        ∀ pre body, QuotedVersionAt output pre body → body = []) ∨
    (∃ pre body, FindStringSubmatch output = [versionOpen ++ body ++ ['"'], body] ∧
        QuotedVersionAt output pre body ∧ body ≠ [] ∧
        ∀ pre2 body2, QuotedVersionAt output pre2 body2 → body2 ≠ [] →
          pre.length ≤ pre2.length) := by
  induction output with
  | nil =>
    left
    exact ⟨rfl, fun pre body h => absurd h (QuotedVersionAt_nil pre body)⟩
  | cons c s ih =>
    cases hm : matchVersionHere (c :: s) with
    | some p =>
      obtain ⟨whole, body⟩ := p
      obtain ⟨hq, hb, rfl⟩ := (matchVersionHere_eq_some _ _ _).1 hm
      right
      refine ⟨[], body, ?_, hq, hb, fun _ _ _ _ => by simp⟩
      simp [FindStringSubmatch, hm]
    | none =>
      have hnone := (matchVersionHere_eq_none _).1 hm
      have hrec : FindStringSubmatch (c :: s) = FindStringSubmatch s := by
        simp [FindStringSubmatch, hm]
      rcases ih with ⟨h0, hall⟩ | ⟨pre, body, hf, hq, hb, hleft⟩
      · left
        refine ⟨hrec.trans h0, ?_⟩
        intro pre body hq
        by_cases hp : pre = []
        · subst hp; exact hnone body hq
        · obtain ⟨pre2, -, hq2⟩ := QuotedVersionAt_head c s pre body hq hp
          exact hall pre2 body hq2
      · right
        refine ⟨c :: pre, body, hrec.trans hf, (QuotedVersionAt_cons c s pre body).2 hq, hb, ?_⟩
        intro pre2 body2 hq2 hb2
        by_cases hp : pre2 = []
        · subst hp; exact absurd (hnone body2 hq2) hb2
        · obtain ⟨pre3, rfl, hq3⟩ := QuotedVersionAt_head c s pre2 body2 hq2 hp
          simpa using hleft pre3 body2 hq3 hb2
theorem Atoi_eq (n : Nat) (s : GoString) :
    Atoi n s =
      if (unsignedPart s).isEmpty || !(unsignedPart s).all Char.isDigit then none
      else if -(2 : Int) ^ (n - 1) ≤ numericValue s ∧ numericValue s < (2 : Int) ^ (n - 1) then
        some (numericValue s)
      else none := by
  unfold Atoi numericValue unsignedPart
  split <;> simp

theorem Atoi_eq_some (n : Nat) (s : GoString) (v : Int) :
    Atoi n s = some v ↔
      (IsNumeric s ∧ (-(2 : Int) ^ (n - 1) ≤ numericValue s ∧ numericValue s < (2 : Int) ^ (n - 1)) ∧
        v = numericValue s) := by
  rw [Atoi_eq]
  unfold IsNumeric
  by_cases h1 : unsignedPart s = []
  · simp [h1]
  · by_cases h2 : ∀ c ∈ unsignedPart s, c.isDigit = true
    · have h3 : (unsignedPart s).all Char.isDigit = true := by simpa using h2
      have h4 : (unsignedPart s).isEmpty = false := by
        cases h : unsignedPart s with
        | nil => exact absurd h h1
        | cons _ _ => rfl
      simp only [h3, h4, Bool.not_true, Bool.or_self, Bool.false_eq_true, if_false]
      split
      · rename_i hf
        simp only [Option.some.injEq]
        constructor
        · rintro rfl; exact ⟨⟨h1, h2⟩, hf, rfl⟩
        · rintro ⟨-, -, rfl⟩; rfl
      · rename_i hf
        simp only [false_iff, reduceCtorEq]
        rintro ⟨-, hf2, -⟩; exact hf hf2
    · have h3 : (unsignedPart s).all Char.isDigit = false := by
        rw [Bool.eq_false_iff]; intro h; exact h2 (by simpa using h)
      simp only [h3, Bool.not_false, Bool.or_true, if_true, false_iff, reduceCtorEq]
      rintro ⟨⟨-, h⟩, -⟩; exact h2 h

theorem Atoi_eq_none (n : Nat) (s : GoString) :
    Atoi n s = none ↔
      ¬ (IsNumeric s ∧ (-(2 : Int) ^ (n - 1) ≤ numericValue s ∧ numericValue s < (2 : Int) ^ (n - 1))) := by
  constructor
  · intro h hc
    have := (Atoi_eq_some n s (numericValue s)).2 ⟨hc.1, hc.2, rfl⟩
    rw [h] at this; cases this
  · intro h
    cases ha : Atoi n s with
    | none => rfl
    | some v =>
      have := (Atoi_eq_some n s v).1 ha
      exact absurd ⟨this.1, this.2.1⟩ h
theorem Split_ne_nil (sep : Char) (s : GoString) : Split sep s ≠ [] := by
  induction s with
  | nil => simp [Split]
  | cons c s ih =>
    unfold Split
    split
    · simp
    · split <;> simp

theorem Split_length_pos (sep : Char) (s : GoString) : 0 < (Split sep s).length :=
  List.length_pos.2 (Split_ne_nil sep s)

theorem Split_legacy_length (s : GoString) (h : "1.".toList <+: s) :
    2 ≤ (Split '.' s).length := by
  obtain ⟨r, rfl⟩ := h
  have h1 : Split '.' ("1.".toList ++ r) = ['1'] :: Split '.' r := by
    show Split '.' ('1' :: '.' :: r) = _
    simp [Split]
  rw [h1]
  have := Split_length_pos '.' r
  simp only [List.length_cons]
  omega

theorem majorOf_eq (P : Platform) (versionStr : GoString) :
    majorOf P versionStr = (Atoi P.intSize (majorComponent versionStr)).getD 0 := by
  unfold majorOf majorComponent
  by_cases h : "1.".toList <+: versionStr
  · have h1 : HasPrefix versionStr "1.".toList = true := (HasPrefix_iff _ _).2 h
    have h2 := Split_legacy_length versionStr h
    simp only [h1, h, if_true, ge_iff_le, h2]
    cases Atoi P.intSize ((Split '.' versionStr).getD 1 []) <;> rfl
  · have h1 : HasPrefix versionStr "1.".toList = false := by
      rw [Bool.eq_false_iff]; intro hc; exact h ((HasPrefix_iff _ _).1 hc)
    have h2 := Split_length_pos '.' versionStr
    simp only [h1, h, if_false, Bool.false_eq_true, gt_iff_lt, h2, if_true]
    cases Atoi P.intSize ((Split '.' versionStr).getD 0 []) <;> rfl

theorem parseVersionOutput_of_match (P : Platform) (output installRoot whole ver : GoString)
    (h : FindStringSubmatch output = [whole, ver]) :
    parseVersionOutput P output installRoot =
      .ok { Version := ver, MajorVersion := majorOf P ver, Path := installRoot,
            Vendor := classifyVendor (ToLower P output) } := by
  simp [parseVersionOutput, h]

theorem parseVersionOutput_of_no_match (P : Platform) (output installRoot : GoString)
    (h : FindStringSubmatch output = []) :
    parseVersionOutput P output installRoot = .error "could not parse version string" := by
  simp [parseVersionOutput, h]

theorem classifyVendor_eq (lower : GoString) :
    classifyVendor lower =
      (if "openjdk".toList <:+: lower then "OpenJDK".toList
       else if "java(tm)".toList <:+: lower ∨ "hotspot".toList <:+: lower then "Oracle".toList
       else if "zulu".toList <:+: lower then "Azul Zulu".toList
       else "Unknown".toList) := by
  unfold classifyVendor
  simp only [Contains_iff, Bool.or_eq_true]
/-! ## Claims about `parseVersionOutput` -/

/-- C1: for every banner and install root, a successful `parseVersionOutput` classifies the
vendor by substring search over the whole lower-cased banner in fixed priority order:
OpenJDK when it contains `openjdk`; otherwise Oracle when it contains `java(tm)` or
`hotspot`; otherwise Azul Zulu when it contains `zulu`; otherwise Unknown.  The search
ignores case (an occurrence in the banner of any word that lower-cases to `openjdk`
counts), and a banner with both `openjdk` and `hotspot` is classified OpenJDK. -/
theorem parseVersionOutput_vendor_priority (P : Platform) (output installRoot : GoString)
    (inst : JavaInstallation) (h : parseVersionOutput P output installRoot = .ok inst) :
    inst.Vendor =
        (if "openjdk".toList <:+: ToLower P output then "OpenJDK".toList
         else if "java(tm)".toList <:+: ToLower P output ∨ "hotspot".toList <:+: ToLower P output
           then "Oracle".toList
         else if "zulu".toList <:+: ToLower P output then "Azul Zulu".toList
         else "Unknown".toList) ∧
      (∀ w, w <:+: output → ToLower P w = "openjdk".toList → inst.Vendor = "OpenJDK".toList) ∧
      ("openjdk".toList <:+: ToLower P output → "hotspot".toList <:+: ToLower P output →
        inst.Vendor = "OpenJDK".toList) := by
  have hv : inst.Vendor = classifyVendor (ToLower P output) := by
    rcases FindStringSubmatch_spec output with ⟨h0, -⟩ | ⟨pre, body, hf, -⟩
    · rw [parseVersionOutput_of_no_match P output installRoot h0] at h; cases h
    · rw [parseVersionOutput_of_match P output installRoot _ _ hf] at h
      cases h; rfl
  rw [classifyVendor_eq] at hv
  refine ⟨hv, ?_, ?_⟩
  · intro w hw hl
    have hin : "openjdk".toList <:+: ToLower P output := by
      obtain ⟨a, b, rfl⟩ := hw
      refine ⟨ToLower P a, ToLower P b, ?_⟩
      rw [← hl]
      simp [ToLower]
    rw [hv, if_pos hin]
  · intro h1 _
    rw [hv, if_pos h1]

/-- The banner `openjdk version "17.0.2" 2022-01-18` parses to version 17.0.2, major
version 17 and vendor OpenJDK, and the vendor obeys the priority order of C1. -/
theorem parseVersionOutput_vendor_priority_witness :
    parseVersionOutput posix64 "openjdk version \"17.0.2\" 2022-01-18".toList "/opt/jdk".toList =
        .ok ⟨"17.0.2".toList, 17, "/opt/jdk".toList, "OpenJDK".toList⟩ ∧
      (⟨"17.0.2".toList, 17, "/opt/jdk".toList, "OpenJDK".toList⟩ : JavaInstallation).Vendor =
        "OpenJDK".toList :=
  ⟨rfl,
    (parseVersionOutput_vendor_priority posix64
      "openjdk version \"17.0.2\" 2022-01-18".toList "/opt/jdk".toList
      ⟨"17.0.2".toList, 17, "/opt/jdk".toList, "OpenJDK".toList⟩ rfl).2.1
      "openjdk".toList ⟨[], " version \"17.0.2\" 2022-01-18".toList, rfl⟩ rfl⟩

/-- A banner with both `OpenJDK` and `HotSpot` in mixed case is classified OpenJDK. -/
theorem parseVersionOutput_openjdk_hotspot :
    parseVersionOutput posix64
        "OpenJDK version \"11.0.1\"\nOpenJDK 64-Bit HotSpot VM".toList "/opt/jdk".toList =
      .ok ⟨"11.0.1".toList, 11, "/opt/jdk".toList, "OpenJDK".toList⟩ := rfl
/-- C2 as stated fails: the banner `java version "99999999999999999999"` parses, its
first component is numeric and reads as the integer 99999999999999999999, yet the
MajorVersion is 0, because that value is not a value of Go's `int`. -/
theorem majorVersion_out_of_range_counterexample :
    parseVersionOutput posix64 "java version \"99999999999999999999\"".toList "/opt/jdk".toList =
        .ok ⟨"99999999999999999999".toList, 0, "/opt/jdk".toList, "Unknown".toList⟩ ∧
      IsNumeric (majorComponent "99999999999999999999".toList) ∧
      numericValue (majorComponent "99999999999999999999".toList) = 99999999999999999999 ∧
      ¬ MajorVersionAsStated
          ⟨"99999999999999999999".toList, 0, "/opt/jdk".toList, "Unknown".toList⟩ := by
  have hnum : IsNumeric (majorComponent "99999999999999999999".toList) := by
    refine ⟨by decide, ?_⟩
    decide
  have hval : numericValue (majorComponent "99999999999999999999".toList)
      = 99999999999999999999 := by rfl
  refine ⟨rfl, hnum, hval, ?_⟩
  intro hc
  have := hc.1 hnum
  rw [hval] at this
  exact absurd this (by decide)

/-- C2 (amended): whenever the banner holds a non-empty quoted version, parsing succeeds,
and the MajorVersion is read from the component that carries it (the second
dot-separated component when the raw version starts with `1.`, the first otherwise): it
is that component read as an integer when the component is numeric and its value fits
Go's `int`, and it is 0 in every other case. -/
theorem parseVersionOutput_major (P : Platform) (output installRoot pre body : GoString)
    (h : QuotedVersionAt output pre body) (hb : body ≠ []) :
    ∃ inst, parseVersionOutput P output installRoot = .ok inst ∧
      (IsNumeric (majorComponent inst.Version) →
        FitsInt P (numericValue (majorComponent inst.Version)) →
        inst.MajorVersion = numericValue (majorComponent inst.Version)) ∧
      (¬ (IsNumeric (majorComponent inst.Version) ∧
          FitsInt P (numericValue (majorComponent inst.Version))) →
        inst.MajorVersion = 0) := by
  rcases FindStringSubmatch_spec output with ⟨-, hall⟩ | ⟨pre1, ver, hf, -⟩
  · exact absurd (hall pre body h) hb
  · refine ⟨_, parseVersionOutput_of_match P output installRoot _ _ hf, ?_, ?_⟩
    · intro h1 h2
      show majorOf P ver = _
      rw [majorOf_eq, (Atoi_eq_some _ _ _).2 ⟨h1, h2, rfl⟩]
      rfl
    · intro h1
      show majorOf P ver = _
      rw [majorOf_eq, (Atoi_eq_none _ _).2 h1]
      rfl

/-- The banner `java version "1.8.0_202"` has legacy numbering: its second component is 8
and the MajorVersion is 8; the vendor is Unknown. -/
theorem parseVersionOutput_major_witness :
    parseVersionOutput posix64 "java version \"1.8.0_202\"".toList "/opt/jdk".toList =
        .ok ⟨"1.8.0_202".toList, 8, "/opt/jdk".toList, "Unknown".toList⟩ ∧
      majorComponent "1.8.0_202".toList = "8".toList ∧
      majorComponent "17.0.2".toList = "17".toList ∧
      ∃ inst, parseVersionOutput posix64 "java version \"1.8.0_202\"".toList "/opt/jdk".toList =
          .ok inst ∧
        (IsNumeric (majorComponent inst.Version) →
          FitsInt posix64 (numericValue (majorComponent inst.Version)) →
          inst.MajorVersion = numericValue (majorComponent inst.Version)) ∧
        (¬ (IsNumeric (majorComponent inst.Version) ∧
            FitsInt posix64 (numericValue (majorComponent inst.Version))) →
          inst.MajorVersion = 0) :=
  ⟨rfl, by decide, by decide,
    parseVersionOutput_major posix64 "java version \"1.8.0_202\"".toList "/opt/jdk".toList
      "java ".toList "1.8.0_202".toList ⟨[], rfl, by decide⟩ (by decide)⟩

/-- A component that is not numeric gives MajorVersion 0 and parsing succeeds. -/
theorem parseVersionOutput_major_not_numeric :
    parseVersionOutput posix64 "openjdk version \"ea-21\"".toList "/opt/jdk".toList =
      .ok ⟨"ea-21".toList, 0, "/opt/jdk".toList, "OpenJDK".toList⟩ := rfl

/-- C3 as stated fails: the banner `java version ""` holds the token `version` followed
by a double-quoted string (the empty one), yet `parseVersionOutput` returns an error. -/
theorem parseVersionOutput_empty_quote_counterexample :
    (∃ pre body, QuotedVersionAt "java version \"\"".toList pre body) ∧
      parseVersionOutput posix64 "java version \"\"".toList "/opt/jdk".toList =
        .error "could not parse version string" :=
  ⟨⟨"java ".toList, [], [], rfl, by decide⟩, rfl⟩

/-- C3 (amended): `parseVersionOutput` returns an error if and only if the banner holds
no occurrence of the token `version`, a space and a double-quoted string with non-empty
content; when it succeeds, the Version is the quoted content of the leftmost such
occurrence and the Path is the installRoot argument. -/
theorem parseVersionOutput_error_iff (P : Platform) (output installRoot : GoString) :
    ((∃ e, parseVersionOutput P output installRoot = .error e) ↔
        ¬ ∃ pre body, QuotedVersionAt output pre body ∧ body ≠ []) ∧
      (∀ inst, parseVersionOutput P output installRoot = .ok inst →
        inst.Path = installRoot ∧ inst.Version ≠ [] ∧
        ∃ pre, QuotedVersionAt output pre inst.Version ∧
          ∀ pre2 body2, QuotedVersionAt output pre2 body2 → body2 ≠ [] →
            pre.length ≤ pre2.length) := by
  rcases FindStringSubmatch_spec output with ⟨h0, hall⟩ | ⟨pre, body, hf, hq, hb, hleft⟩
  · rw [parseVersionOutput_of_no_match P output installRoot h0]
    refine ⟨⟨fun _ => ?_, fun _ => ⟨_, rfl⟩⟩, fun inst hc => by cases hc⟩
    rintro ⟨pre, body, hq, hb⟩
    exact hb (hall pre body hq)
  · rw [parseVersionOutput_of_match P output installRoot _ _ hf]
    refine ⟨⟨fun he => (by obtain ⟨e, he⟩ := he; cases he), fun hn => absurd ⟨pre, body, hq, hb⟩ hn⟩, ?_⟩
    intro inst hi
    cases hi
    exact ⟨rfl, hb, pre, hq, hleft⟩

/-- On `java version "" openjdk version "17.0.2"` the empty quotes are passed over and
the Version is the content of the leftmost non-empty quoted version. -/
theorem parseVersionOutput_error_iff_witness :
    (⟨"17.0.2".toList, 17, "/opt/jdk".toList, "OpenJDK".toList⟩ : JavaInstallation).Path =
        "/opt/jdk".toList ∧
      (⟨"17.0.2".toList, 17, "/opt/jdk".toList, "OpenJDK".toList⟩ : JavaInstallation).Version ≠ [] ∧
      ∃ pre, QuotedVersionAt "java version \"\" openjdk version \"17.0.2\"".toList pre
          (⟨"17.0.2".toList, 17, "/opt/jdk".toList, "OpenJDK".toList⟩ : JavaInstallation).Version ∧
        ∀ pre2 body2,
          QuotedVersionAt "java version \"\" openjdk version \"17.0.2\"".toList pre2 body2 →
          body2 ≠ [] → pre.length ≤ pre2.length :=
  (parseVersionOutput_error_iff posix64
    "java version \"\" openjdk version \"17.0.2\"".toList "/opt/jdk".toList).2
    ⟨"17.0.2".toList, 17, "/opt/jdk".toList, "OpenJDK".toList⟩ rfl
/-! ## Claims about `Config.CurrentVersionPath` -/

theorem CurrentVersionPath.scan_append (version : GoString) (pre rest : List JavaInstallation)
    (h : ∀ x ∈ pre, x.Version ≠ version) :
    CurrentVersionPath.scan version (pre ++ rest) = CurrentVersionPath.scan version rest := by
  induction pre with
  | nil => rfl
  | cons p pre ih =>
    have hp : p.Version ≠ version := h p (by simp)
    simp only [List.cons_append, CurrentVersionPath.scan, hp, if_false]
    exact ih (fun x hx => h x (by simp [hx]))

theorem CurrentVersionPath.scan_find (version : GoString) (l : List JavaInstallation) :
    CurrentVersionPath.scan version l =
      ((l.find? (fun i => decide (i.Version = version))).map (fun i => i.Path)).getD [] := by
  induction l with
  | nil => rfl
  | cons p l ih =>
    by_cases hp : p.Version = version
    · simp [CurrentVersionPath.scan, hp]
    · simp [CurrentVersionPath.scan, hp, ih]

/-- C4: for every inventory and every version string, `CurrentVersionPath` returns the Path
of the first installation in list order whose Version equals the string, and returns
not-found (the empty string) when no installation has that Version. -/
theorem CurrentVersionPath_first_match (c : Config) (version : GoString) :
    (∀ pre inst post, c.Installations = pre ++ inst :: post →
        (∀ x ∈ pre, x.Version ≠ version) → inst.Version = version →
        c.CurrentVersionPath version = inst.Path) ∧
      ((∃ x ∈ c.Installations, x.Version = version) →
        ∃ inst ∈ c.Installations, inst.Version = version ∧
          c.CurrentVersionPath version = inst.Path) ∧
      ((∀ x ∈ c.Installations, x.Version ≠ version) → c.CurrentVersionPath version = []) ∧
      c.CurrentVersionPath version =
        ((c.Installations.find? (fun i => decide (i.Version = version))).map
          (fun i => i.Path)).getD [] := by
  refine ⟨?_, ?_, ?_, CurrentVersionPath.scan_find version c.Installations⟩
  · intro pre inst post hl hpre hv
    unfold Config.CurrentVersionPath
    rw [hl, CurrentVersionPath.scan_append version pre _ hpre]
    simp [CurrentVersionPath.scan, hv]
  · rintro ⟨x, hx, hxv⟩
    unfold Config.CurrentVersionPath
    rw [CurrentVersionPath.scan_find]
    cases hf : c.Installations.find? (fun i => decide (i.Version = version)) with
    | none =>
      rw [List.find?_eq_none] at hf
      exact absurd hxv (by simpa using hf x hx)
    | some inst =>
      refine ⟨inst, List.mem_of_find?_eq_some hf, ?_, rfl⟩
      simpa using List.find?_some hf
  · intro hall
    unfold Config.CurrentVersionPath
    have := CurrentVersionPath.scan_append version c.Installations [] hall
    rw [List.append_nil] at this
    rw [this]; rfl

/-- Two installations report version 17.0.2: the first one in list order is resolved; a
version that is absent resolves to the empty string. -/
theorem CurrentVersionPath_first_match_witness :
    (Config.mk "".toList
        [⟨"1.8.0_202".toList, 8, "/opt/jdk8".toList, "Oracle".toList⟩,
         ⟨"17.0.2".toList, 17, "/opt/jdk17".toList, "OpenJDK".toList⟩,
         ⟨"17.0.2".toList, 17, "/opt/zulu17".toList, "Azul Zulu".toList⟩]).CurrentVersionPath
        "17.0.2".toList = "/opt/jdk17".toList ∧
      (Config.mk "".toList
        [⟨"1.8.0_202".toList, 8, "/opt/jdk8".toList, "Oracle".toList⟩]).CurrentVersionPath
        "21".toList = [] :=
  ⟨(CurrentVersionPath_first_match
      (Config.mk "".toList
        [⟨"1.8.0_202".toList, 8, "/opt/jdk8".toList, "Oracle".toList⟩,
         ⟨"17.0.2".toList, 17, "/opt/jdk17".toList, "OpenJDK".toList⟩,
         ⟨"17.0.2".toList, 17, "/opt/zulu17".toList, "Azul Zulu".toList⟩])
      "17.0.2".toList).1
      [⟨"1.8.0_202".toList, 8, "/opt/jdk8".toList, "Oracle".toList⟩]
      ⟨"17.0.2".toList, 17, "/opt/jdk17".toList, "OpenJDK".toList⟩
      [⟨"17.0.2".toList, 17, "/opt/zulu17".toList, "Azul Zulu".toList⟩]
      rfl (by decide) rfl,
   rfl⟩
/-! ## Claims about the Windows switch -/

theorem keptParts_eq (P : Platform) (parts : List GoString) :
    keptParts P parts =
      (parts.map (TrimSpace P)).filter
        (fun t => decide (t ≠ []) && !EqualFold P t javaHomeBin) := by
  induction parts with
  | nil => rfl
  | cons p parts ih =>
    simp only [keptParts, List.map_cons, List.filter_cons]
    by_cases h1 : TrimSpace P p = []
    · simp [h1, ih]
    · by_cases h2 : EqualFold P (TrimSpace P p) javaHomeBin = true
      · simp [h1, h2, ih]
      · simp [h1, h2, ih]

theorem Split_no_sep (sep : Char) (s : GoString) : ∀ p ∈ Split sep s, sep ∉ p := by
  induction s with
  | nil => simp [Split]
  | cons c s ih =>
    unfold Split
    split
    · intro p hp
      rcases List.mem_cons.1 hp with rfl | hp
      · simp
      · exact ih p hp
    · rename_i hc
      split
      · intro p hp
        simp only [List.mem_singleton] at hp
        subst hp
        simp [Ne.symm hc]
      · rename_i part parts heq
        intro p hp
        rcases List.mem_cons.1 hp with rfl | hp
        · have := ih part (by rw [heq]; simp)
          simp [Ne.symm hc, this]
        · exact ih p (by rw [heq]; simp [hp])

theorem Split_of_no_sep (sep : Char) (p : GoString) (h : sep ∉ p) : Split sep p = [p] := by
  induction p with
  | nil => rfl
  | cons c p ih =>
    have hc : c ≠ sep := fun e => h (by simp [e])
    have hp : sep ∉ p := fun e => h (by simp [e])
    simp [Split, hc, ih hp]

theorem Split_append_sep (sep : Char) (p rest : GoString) (h : sep ∉ p) :
    Split sep (p ++ sep :: rest) = p :: Split sep rest := by
  induction p with
  | nil => simp [Split]
  | cons c p ih =>
    have hc : c ≠ sep := fun e => h (by simp [e])
    have hp : sep ∉ p := fun e => h (by simp [e])
    simp [Split, hc, ih hp]

theorem Split_Join (sep : Char) (parts : List GoString) (hne : parts ≠ [])
    (h : ∀ p ∈ parts, sep ∉ p) : Split sep (Join sep parts) = parts := by
  induction parts with
  | nil => exact absurd rfl hne
  | cons p parts ih =>
    cases parts with
    | nil => simpa [Join] using Split_of_no_sep sep p (h p (by simp))
    | cons q parts =>
      simp only [Join]
      rw [Split_append_sep sep p _ (h p (by simp))]
      rw [ih (by simp) (fun x hx => h x (by simp [hx]))]

theorem mem_TrimSpace (P : Platform) (s : GoString) (c : Char) (h : c ∈ TrimSpace P s) :
    c ∈ s := by
  unfold TrimSpace at h
  rw [List.mem_reverse] at h
  have h1 := (List.dropWhile_sublist _).subset h
  rw [List.mem_reverse] at h1
  exact (List.dropWhile_sublist _).subset h1

theorem equalFoldRune_self (P : Platform) (a : Char) : equalFoldRune P a a = true := by
  simp [equalFoldRune]

theorem EqualFold_self (P : Platform) (s : GoString) : EqualFold P s s = true := by
  induction s with
  | nil => rfl
  | cons a s ih => simp [EqualFold, equalFoldRune_self, ih]

theorem Windows.switchJava_registry_ok (P : Platform) (f : RegistryFaults) (reg reg2 : Registry)
    (javaPath : GoString) (h : Windows.switchJava P f reg javaPath = (reg2, .ok ())) :
    reg2 = { JAVA_HOME := some javaPath,
             Path := some (Join ';' (javaHomeBin :: keptParts P (Split ';' (reg.Path.getD [])))) } := by
  unfold Windows.switchJava at h
  split at h
  · cases h
  · split at h
    · cases h
    · split at h
      · cases h
      · split at h
        · cases h
        · simp only [Prod.mk.injEq, and_true] at h
          exact h.symm
/-- C5 as stated fails: on the old Path `C:\tools; C:\bin` the switch writes back
`%JAVA_HOME%\bin;C:\tools;C:\bin`: the second token has lost its leading blank, so
the old tokens are not written back verbatim. -/
theorem Windows.switchJava_trims_counterexample :
    Windows.switchJava posix64 ⟨false, false, false, false⟩
        ⟨none, some "C:\\tools; C:\\bin".toList⟩ "C:\\jdk-17".toList =
      (⟨some "C:\\jdk-17".toList, some "%JAVA_HOME%\\bin;C:\\tools;C:\\bin".toList⟩, .ok ()) ∧
    pathAsStated posix64 "C:\\tools; C:\\bin".toList = "%JAVA_HOME%\\bin;C:\\tools; C:\\bin".toList ∧
    "%JAVA_HOME%\\bin;C:\\tools;C:\\bin".toList ≠ pathAsStated posix64 "C:\\tools; C:\\bin".toList := by
  refine ⟨rfl, rfl, ?_⟩
  decide

/-- C5 (amended): for every old `Path` value (the empty string when the value does not
exist), a successful Windows switch writes back the list that starts with the single
token `%JAVA_HOME%\bin` and goes on with the old tokens in their original order, each
with its leading and trailing white space trimmed, leaving out the tokens whose trimmed
form is empty or equals `%JAVA_HOME%\bin` up to case. -/
theorem Windows.switchJava_path (P : Platform) (f : RegistryFaults) (reg reg2 : Registry)
    (javaPath : GoString) (h : Windows.switchJava P f reg javaPath = (reg2, .ok ())) :
    reg2.Path = some (Join ';' (javaHomeBin ::
      ((Split ';' (reg.Path.getD [])).map (TrimSpace P)).filter
        (fun t => decide (t ≠ []) && !EqualFold P t javaHomeBin))) := by
  rw [Windows.switchJava_registry_ok P f reg reg2 javaPath h, keptParts_eq]

/-- On the old Path `C:\tools; ;%java_home%\BIN; D:\x ` the switch writes back
`%JAVA_HOME%\bin;C:\tools;D:\x`. -/
theorem Windows.switchJava_path_witness :
    (⟨some "C:\\jdk-17".toList, some "%JAVA_HOME%\\bin;C:\\tools;D:\\x".toList⟩ : Registry).Path =
      some (Join ';' (javaHomeBin ::
        ((Split ';' ((⟨none, some "C:\\tools; ;%java_home%\\BIN; D:\\x ".toList⟩ :
            Registry).Path.getD [])).map (TrimSpace posix64)).filter
          (fun t => decide (t ≠ []) && !EqualFold posix64 t javaHomeBin))) :=
  Windows.switchJava_path posix64 ⟨false, false, false, false⟩
    ⟨none, some "C:\\tools; ;%java_home%\\BIN; D:\\x ".toList⟩
    ⟨some "C:\\jdk-17".toList, some "%JAVA_HOME%\\bin;C:\\tools;D:\\x".toList⟩
    "C:\\jdk-17".toList rfl

/-- C6: on Windows, for every initial registry and all targets A and B, after a successful
switch to A followed by a successful switch to B the stored `Path` list holds exactly one
token that equals `%JAVA_HOME%\bin` up to case, that token is the first one, and
`JAVA_HOME` holds B. -/
theorem Windows.switchJava_registry_twice (P : Platform) (f1 f2 : RegistryFaults)
    (reg reg1 reg2 : Registry) (a b : GoString)
    (h1 : Windows.switchJava P f1 reg a = (reg1, .ok ()))
    (h2 : Windows.switchJava P f2 reg1 b = (reg2, .ok ())) :
    reg1.JAVA_HOME = some a ∧ reg2.JAVA_HOME = some b ∧
      ∃ value, reg2.Path = some value ∧
        (Split ';' value).head? = some javaHomeBin ∧
        (Split ';' value).countP (fun t => EqualFold P t javaHomeBin) = 1 := by
  have ha := Windows.switchJava_registry_ok P f1 reg reg1 a h1
  have hb := Windows.switchJava_registry_ok P f2 reg1 reg2 b h2
  refine ⟨by rw [ha], by rw [hb], _, by rw [hb], ?_⟩
  have hsplit : Split ';' (Join ';' (javaHomeBin :: keptParts P (Split ';' (reg1.Path.getD []))))
      = javaHomeBin :: keptParts P (Split ';' (reg1.Path.getD [])) := by
    apply Split_Join _ _ (by simp)
    intro p hp
    rcases List.mem_cons.1 hp with rfl | hp
    · decide
    · rw [keptParts_eq, List.mem_filter, List.mem_map] at hp
      obtain ⟨⟨q, hq, rfl⟩, -⟩ := hp
      exact fun hc => Split_no_sep ';' _ q hq (mem_TrimSpace P q ';' hc)
  rw [hsplit]
  refine ⟨rfl, ?_⟩
  rw [List.countP_cons, if_pos (EqualFold_self P javaHomeBin)]
  have : (keptParts P (Split ';' (reg1.Path.getD []))).countP
      (fun t => EqualFold P t javaHomeBin) = 0 := by
    rw [List.countP_eq_zero]
    intro t ht
    rw [keptParts_eq, List.mem_filter] at ht
    have h3 := ht.2
    simp only [Bool.and_eq_true, Bool.not_eq_true', decide_eq_true_eq] at h3
    simp [h3.2]
  rw [this]

/-- Starting from a Path that already holds two home-bin tokens, switching to one JDK and
then to another leaves one home-bin token, in front, and `JAVA_HOME` at the second. -/
theorem Windows.switchJava_registry_twice_witness :
    (⟨some "C:\\jdk-17".toList, some "%JAVA_HOME%\\bin;C:\\tools".toList⟩ : Registry).JAVA_HOME =
        some "C:\\jdk-17".toList ∧
      (⟨some "C:\\jdk-21".toList, some "%JAVA_HOME%\\bin;C:\\tools".toList⟩ : Registry).JAVA_HOME =
        some "C:\\jdk-21".toList ∧
      ∃ value,
        (⟨some "C:\\jdk-21".toList, some "%JAVA_HOME%\\bin;C:\\tools".toList⟩ : Registry).Path =
          some value ∧
        (Split ';' value).head? = some javaHomeBin ∧
        (Split ';' value).countP (fun t => EqualFold posix64 t javaHomeBin) = 1 :=
  Windows.switchJava_registry_twice posix64 ⟨false, false, false, false⟩ ⟨false, false, false, false⟩
    ⟨some "C:\\old".toList, some "%java_home%\\bin;C:\\tools;%JAVA_HOME%\\BIN".toList⟩
    ⟨some "C:\\jdk-17".toList, some "%JAVA_HOME%\\bin;C:\\tools".toList⟩
    ⟨some "C:\\jdk-21".toList, some "%JAVA_HOME%\\bin;C:\\tools".toList⟩
    "C:\\jdk-17".toList "C:\\jdk-21".toList rfl rfl
/-! ## Claims about the POSIX switch -/

theorem Unix.switchJava_link_ok (f : LinkFaults) (link link2 : Option LinkEntry)
    (javaPath : GoString) (h : Unix.switchJava f link javaPath = (link2, .ok ())) :
    link2 = some (.symlink javaPath) := by
  obtain ⟨u, l, r, s⟩ := f
  cases u <;> cases l <;> cases r <;> cases s <;> cases link <;>
    simp [Unix.switchJava] at h <;> exact h.symm

/-- C7: on POSIX, from every initial state of the link path (absent, regular file,
directory, live or stale symlink) a switch whose calls do not fail succeeds; and for all
targets A and B, a successful switch to A followed by a successful switch to B leaves at
the link path one entry, a symlink whose target is B, with no remaining reference to A;
repeating a switch to the same target leaves the same state as switching once. -/
theorem Unix.switchJava_link_twice (f1 f2 : LinkFaults) (link link1 link2 : Option LinkEntry)
    (a b : GoString)
    (h1 : Unix.switchJava f1 link a = (link1, .ok ()))
    (h2 : Unix.switchJava f2 link1 b = (link2, .ok ())) :
    link1 = some (.symlink a) ∧ link2 = some (.symlink b) ∧
      (a ≠ b → link2 ≠ some (.symlink a)) ∧
      (∀ (f3 : LinkFaults) (link3 : Option LinkEntry),
        Unix.switchJava f3 link1 a = (link3, .ok ()) → link3 = link1) ∧
      (∀ (start : Option LinkEntry) (target : GoString),
        Unix.switchJava ⟨false, false, false, false⟩ start target =
          (some (.symlink target), .ok ())) := by
  have ha := Unix.switchJava_link_ok f1 link link1 a h1
  have hb := Unix.switchJava_link_ok f2 link1 link2 b h2
  subst ha hb
  refine ⟨rfl, rfl, ?_, ?_, ?_⟩
  · intro hne hc
    injection hc with hc
    injection hc with hc
    exact hne hc.symm
  · intro f3 link3 h3
    exact Unix.switchJava_link_ok f3 _ link3 a h3
  · intro start target
    cases start <;> simp [Unix.switchJava]

/-- From a stale symlink to an old JDK, switching to JDK 17 and then to JDK 21 leaves a
symlink to JDK 21. -/
theorem Unix.switchJava_link_twice_witness :
    (some (LinkEntry.symlink "/opt/jdk-17".toList)) = some (.symlink "/opt/jdk-17".toList) ∧
      (some (LinkEntry.symlink "/opt/jdk-21".toList)) = some (.symlink "/opt/jdk-21".toList) ∧
      ("/opt/jdk-17".toList ≠ "/opt/jdk-21".toList →
        (some (LinkEntry.symlink "/opt/jdk-21".toList)) ≠ some (.symlink "/opt/jdk-17".toList)) ∧
      (∀ (f3 : LinkFaults) (link3 : Option LinkEntry),
        Unix.switchJava f3 (some (LinkEntry.symlink "/opt/jdk-17".toList)) "/opt/jdk-17".toList =
          (link3, .ok ()) → link3 = some (LinkEntry.symlink "/opt/jdk-17".toList)) ∧
      (∀ (start : Option LinkEntry) (target : GoString),
        Unix.switchJava ⟨false, false, false, false⟩ start target =
          (some (.symlink target), .ok ())) :=
  Unix.switchJava_link_twice ⟨false, false, false, false⟩ ⟨false, false, false, false⟩
    (some (.symlink "/opt/old-jdk".toList)) (some (.symlink "/opt/jdk-17".toList))
    (some (.symlink "/opt/jdk-21".toList)) "/opt/jdk-17".toList "/opt/jdk-21".toList rfl rfl
/-! ## The scan as a fold over the visited entries -/

theorem scanVisit_err (P : Platform) (run : GoString → Option GoString) (s : ScanState)
    (path : GoString) (d : Option DirEntry) : scanVisit P run s path d true = (s, .nil) := by
  simp [scanVisit]

theorem scanVisit_dir (P : Platform) (run : GoString → Option GoString) (s : ScanState)
    (path name : GoString) :
    scanVisit P run s path (some ⟨name, .dir⟩) false =
      (s, if ignoredDirs name then .SkipDir else .nil) := by
  simp only [scanVisit, DirEntry.IsDir]
  by_cases h : ignoredDirs name = true <;> simp [h]

theorem scanVisit_leaf (P : Platform) (run : GoString → Option GoString) (s : ScanState)
    (path : GoString) (d : DirEntry) (hd : d.IsDir = false) :
    (scanVisit P run s path (some d) false).2 = .nil := by
  simp only [scanVisit, hd]
  simp only [Bool.false_eq_true, if_false]
  split
  · split
    · split
      · rfl
      · split <;> rfl
    · rfl
  · rfl

theorem leaf_entry_not_dir (name : GoString) (type : LeafType) :
    (FsNode.leaf name type).entry.IsDir = false := by
  cases type <;> rfl

theorem visitAll_append (P : Platform) (run : GoString → Option GoString)
    (l1 l2 : List (GoString × DirEntry)) (s : ScanState) :
    visitAll P run (l1 ++ l2) s = visitAll P run l2 (visitAll P run l1 s) := by
  simp [visitAll, List.foldl_append]

mutual
theorem walkDir_scanVisit (P : Platform) (run : GoString → Option GoString) (path : GoString) :
    ∀ (node : FsNode) (s : ScanState),
      walkDir P (scanVisit P run) path node s = (visitAll P run (walkEntries P path node) s, .nil)
  | .leaf name type, s => by
    have h := scanVisit_leaf P run s path (FsNode.leaf name type).entry
      (leaf_entry_not_dir name type)
    simp only [walkDir, walkEntries, visitAll, List.foldl_cons, List.foldl_nil]
    exact Prod.ext rfl h
  | .dir name readDirErr children, s => by
    simp only [walkDir, walkEntries, scanVisit_dir, scanVisit_err]
    by_cases hi : ignoredDirs name = true
    · simp [hi, visitAll, scanVisit_dir]
    · have hrec := walkDirEntries_scanVisit P run path children s
      cases readDirErr <;>
        simp [hi, visitAll, scanVisit_dir] <;> simpa [visitAll] using hrec
theorem walkDirEntries_scanVisit (P : Platform) (run : GoString → Option GoString)
    (path : GoString) :
    ∀ (children : List FsNode) (s : ScanState),
      walkDirEntries P (scanVisit P run) path children s =
        (visitAll P run (walkEntriesList P path children) s, .nil)
  | [], s => by simp [walkDirEntries, walkEntriesList, visitAll]
  | d1 :: rest, s => by
    have h1 := walkDir_scanVisit P run (P.Join path d1.entry.Name) d1 s
    have h2 := walkDirEntries_scanVisit P run path rest
      (visitAll P run (walkEntries P (P.Join path d1.entry.Name) d1) s)
    simp only [walkDirEntries, walkEntriesList, h1, h2, visitAll_append]
end

theorem WalkDir_scanVisit (P : Platform) (run : GoString → Option GoString) (root : GoString)
    (stat : RootStat) (s : ScanState) :
    WalkDir P (scanVisit P run) root stat s =
      (match stat with
        | .found node => visitAll P run (walkEntries P root node) s
        | _ => s, .nil) := by
  cases stat with
  | notExist => simp [WalkDir, scanVisit_err]
  | lstatFails => simp [WalkDir, scanVisit_err]
  | found node => simp [WalkDir, walkDir_scanVisit]

/-- The scan never returns an error, and its final state is the fold of the callback over
the visited entries. -/
theorem scanRoots_eq (P : Platform) (run : GoString → Option GoString)
    (fs : GoString → RootStat) (rootPaths : List GoString) (s : ScanState) :
    scanRoots P run fs rootPaths s = .ok (visitAll P run (scanEntries P fs rootPaths) s) := by
  induction rootPaths generalizing s with
  | nil => rfl
  | cons root rootPaths ih =>
    unfold scanRoots scanEntries
    cases hst : fs root with
    | notExist => simp [ih]
    | lstatFails => simp [WalkDir_scanVisit, ih]
    | found node => simp [WalkDir_scanVisit, ih, visitAll_append]
/-! ## One call of the scan callback -/

theorem verifyAndParseJava_path (P : Platform) (run : GoString → Option GoString)
    (path root : GoString) (inst : JavaInstallation)
    (h : verifyAndParseJava P run path root = .ok inst) : inst.Path = root := by
  unfold verifyAndParseJava at h
  cases hr : run path with
  | none => rw [hr] at h; cases h
  | some output =>
    rw [hr] at h
    simp only at h
    rcases FindStringSubmatch_spec output with ⟨h0, -⟩ | ⟨pre, body, hf, -⟩
    · rw [parseVersionOutput_of_no_match P output root h0] at h; cases h
    · rw [parseVersionOutput_of_match P output root _ _ hf] at h
      cases h; rfl

theorem scanVisit_candidate (P : Platform) (run : GoString → Option GoString) (s : ScanState)
    (path : GoString) (d : DirEntry) (hc : IsCandidate P path d)
    (hs : installRootOf P path ∉ s.seenPaths) :
    (scanVisit P run s path (some d) false).1 =
      match verifyAndParseJava P run path (installRootOf P path) with
      | .ok inst =>
        { installations := s.installations ++ [inst],
          seenPaths := installRootOf P path :: s.seenPaths,
          launched := s.launched ++ [(path, installRootOf P path)] }
      | .error _ => { s with launched := s.launched ++ [(path, installRootOf P path)] } := by
  obtain ⟨h1, h2, h3⟩ := hc
  unfold installRootOf at hs ⊢
  simp only [scanVisit, h1, h2, h3, hs, Bool.false_eq_true, if_false, if_true]
  cases verifyAndParseJava P run path (P.Dir (P.Dir path)) <;> rfl

theorem scanVisit_seen (P : Platform) (run : GoString → Option GoString) (s : ScanState)
    (path : GoString) (d : DirEntry) (hs : installRootOf P path ∈ s.seenPaths) :
    (scanVisit P run s path (some d) false).1 = s := by
  unfold installRootOf at hs
  simp only [scanVisit, hs, Bool.false_eq_true, if_false, if_true]
  split
  · split <;> rfl
  · split
    · split <;> rfl
    · rfl

theorem scanVisit_not_candidate (P : Platform) (run : GoString → Option GoString)
    (s : ScanState) (path : GoString) (d : DirEntry) (hc : ¬ IsCandidate P path d) :
    (scanVisit P run s path (some d) false).1 = s := by
  unfold IsCandidate at hc
  simp only [scanVisit, Bool.false_eq_true, if_false]
  by_cases h1 : d.IsDir = true
  · simp only [h1, if_true]; split <;> rfl
  · have h1f : d.IsDir = false := by simpa using h1
    simp only [h1f, Bool.false_eq_true, if_false]
    by_cases h2 : ToLower P d.Name = "java".toList ∨ ToLower P d.Name = "java.exe".toList
    · have h3 : EqualFold P (P.Base (P.Dir path)) "bin".toList ≠ true := fun h3 =>
        hc ⟨h1f, h2, h3⟩
      rw [if_pos h2, if_neg h3]
    · rw [if_neg h2]
/-! ## The invariant of the scan -/

theorem scanInv_init (P : Platform) (run : GoString → Option GoString) :
    ScanInv P run [] ⟨[], [], []⟩ where
  seen_iff := by
    intro R
    constructor
    · intro h; cases h
    · rintro ⟨e, he, -⟩; cases he
  seen_paths := by
    intro R
    constructor <;> (intro h; cases h)
  nodup := List.nodup_nil
  successes := rfl
  launched_cand := by
    intro x hx; cases hx
  success_seen := by
    intro x hx; cases hx
  after_success := List.Pairwise.nil

theorem scanInv_mono (P : Platform) (run : GoString → Option GoString)
    (pre : List (GoString × DirEntry)) (e : GoString × DirEntry) (s : ScanState)
    (inv : ScanInv P run pre s)
    (he : IsCandidate P e.1 e.2 → Verifies P run e.1 (installRootOf P e.1) →
      installRootOf P e.1 ∈ s.seenPaths) :
    ScanInv P run (pre ++ [e]) s where
  seen_iff := by
    intro R
    rw [inv.seen_iff R]
    constructor
    · rintro ⟨e1, h1, h2⟩
      exact ⟨e1, by simp [h1], h2⟩
    · rintro ⟨e1, h1, h2, h3, h4⟩
      rcases List.mem_append.1 h1 with h1 | h1
      · exact ⟨e1, h1, h2, h3, h4⟩
      · simp only [List.mem_singleton] at h1
        subst h1
        subst h3
        exact (inv.seen_iff _).1 (he h2 h4)
  seen_paths := inv.seen_paths
  nodup := inv.nodup
  successes := inv.successes
  launched_cand := by
    intro x hx
    obtain ⟨e1, h1, h2⟩ := inv.launched_cand x hx
    exact ⟨e1, by simp [h1], h2⟩
  success_seen := inv.success_seen
  after_success := inv.after_success

theorem scanInv_launch (P : Platform) (run : GoString → Option GoString)
    (pre : List (GoString × DirEntry)) (e : GoString × DirEntry) (s : ScanState)
    (inv : ScanInv P run pre s) (hc : IsCandidate P e.1 e.2)
    (hs : installRootOf P e.1 ∉ s.seenPaths) :
    ScanInv P run (pre ++ [e]) (scanVisit P run s e.1 (some e.2) false).1 := by
  rw [scanVisit_candidate P run s e.1 e.2 hc hs]
  have hpair : (s.launched ++ [(e.1, installRootOf P e.1)]).Pairwise
      (fun x y => Verifies P run x.1 x.2 → y.2 ≠ x.2) := by
    rw [List.pairwise_append]
    refine ⟨inv.after_success, by simp, ?_⟩
    intro a ha b hb hv
    simp only [List.mem_singleton] at hb
    subst hb
    intro heq
    have h2 : installRootOf P e.1 = a.2 := heq
    rw [h2] at hs
    exact hs (inv.success_seen a ha hv)
  have hcand : ∀ x ∈ s.launched ++ [(e.1, installRootOf P e.1)],
      ∃ e1 ∈ pre ++ [e], IsCandidate P e1.1 e1.2 ∧ x = (e1.1, installRootOf P e1.1) := by
    intro x hx
    rcases List.mem_append.1 hx with hx | hx
    · obtain ⟨e1, h1, h2⟩ := inv.launched_cand x hx
      exact ⟨e1, by simp [h1], h2⟩
    · simp only [List.mem_singleton] at hx
      exact ⟨e, by simp, hc, hx⟩
  cases hv : verifyAndParseJava P run e.1 (installRootOf P e.1) with
  | ok inst =>
    have hpath : inst.Path = installRootOf P e.1 := verifyAndParseJava_path P run _ _ inst hv
    exact {
      seen_iff := by
        intro R
        simp only [List.mem_cons]
        constructor
        · rintro (rfl | h)
          · exact ⟨e, by simp, hc, rfl, inst, hv⟩
          · obtain ⟨e1, h1, h2⟩ := (inv.seen_iff R).1 h
            exact ⟨e1, by simp [h1], h2⟩
        · rintro ⟨e1, h1, h2, h3, h4⟩
          rcases List.mem_append.1 h1 with h1 | h1
          · exact Or.inr ((inv.seen_iff R).2 ⟨e1, h1, h2, h3, h4⟩)
          · simp only [List.mem_singleton] at h1
            subst h1
            exact Or.inl h3.symm
      seen_paths := by
        intro R
        rw [List.mem_cons, List.map_append, List.mem_append, inv.seen_paths R]
        simp only [List.map_cons, List.map_nil, List.mem_singleton, hpath]
        exact or_comm
      nodup := by
        simp only [List.map_append, List.map_cons, List.map_nil, hpath]
        rw [List.nodup_append]
        refine ⟨inv.nodup, by simp, ?_⟩
        intro a ha hb
        simp only [List.mem_singleton] at hb
        subst hb
        exact hs ((inv.seen_paths _).2 ha)
      successes := by
        simp only [List.filterMap_append, ← inv.successes]
        simp [hv, Except.toOption]
      launched_cand := hcand
      success_seen := by
        intro x hx hxv
        rcases List.mem_append.1 hx with hx | hx
        · exact List.mem_cons_of_mem _ (inv.success_seen x hx hxv)
        · simp only [List.mem_singleton] at hx
          subst hx
          exact List.mem_cons_self _ _
      after_success := hpair }
  | error msg =>
    exact {
      seen_iff := by
        intro R
        rw [inv.seen_iff R]
        constructor
        · rintro ⟨e1, h1, h2⟩
          exact ⟨e1, by simp [h1], h2⟩
        · rintro ⟨e1, h1, h2, h3, h4⟩
          rcases List.mem_append.1 h1 with h1 | h1
          · exact ⟨e1, h1, h2, h3, h4⟩
          · simp only [List.mem_singleton] at h1
            subst h1
            subst h3
            obtain ⟨inst, hi⟩ := h4
            rw [hv] at hi; cases hi
      seen_paths := inv.seen_paths
      nodup := inv.nodup
      successes := by
        simp only [List.filterMap_append, ← inv.successes]
        simp [hv, Except.toOption]
      launched_cand := hcand
      success_seen := by
        intro x hx hxv
        rcases List.mem_append.1 hx with hx | hx
        · exact inv.success_seen x hx hxv
        · simp only [List.mem_singleton] at hx
          subst hx
          obtain ⟨inst, hi⟩ := hxv
          rw [hv] at hi; cases hi
      after_success := hpair }

theorem scanInv_step (P : Platform) (run : GoString → Option GoString)
    (pre : List (GoString × DirEntry)) (e : GoString × DirEntry) (s : ScanState)
    (inv : ScanInv P run pre s) :
    ScanInv P run (pre ++ [e]) (scanVisit P run s e.1 (some e.2) false).1 := by
  by_cases hc : IsCandidate P e.1 e.2
  · by_cases hs : installRootOf P e.1 ∈ s.seenPaths
    · rw [scanVisit_seen P run s e.1 e.2 hs]
      exact scanInv_mono P run pre e s inv (fun _ _ => hs)
    · exact scanInv_launch P run pre e s inv hc hs
  · rw [scanVisit_not_candidate P run s e.1 e.2 hc]
    exact scanInv_mono P run pre e s inv (fun h _ => absurd h hc)

theorem scanInv_visitAll (P : Platform) (run : GoString → Option GoString)
    (entries : List (GoString × DirEntry)) :
    ScanInv P run entries (visitAll P run entries ⟨[], [], []⟩) := by
  induction entries using List.reverseRecOn with
  | nil => exact scanInv_init P run
  | append_singleton pre e ih =>
    rw [visitAll_append]
    exact scanInv_step P run pre e _ ih
/-! ## Claims about `ScanSystem` -/

theorem ScanSystem_eq (P : Platform) (run : GoString → Option GoString)
    (fs : GoString → RootStat) (rootPaths : List GoString) :
    ScanSystem P run fs rootPaths =
      .ok (visitAll P run (scanEntries P fs rootPaths) ⟨[], [], []⟩).installations := by
  unfold ScanSystem
  rw [scanRoots_eq]
  rfl

theorem filter_key_length_one {α β : Type} [DecidableEq β] (f : α → β) (l : List α)
    (h : (l.map f).Nodup) (b : β) (hb : b ∈ l.map f) :
    (l.filter (fun a => decide (f a = b))).length = 1 := by
  induction l with
  | nil => cases hb
  | cons a l ih =>
    rw [List.map_cons, List.nodup_cons] at h
    by_cases hab : f a = b
    · have hnone : l.filter (fun a => decide (f a = b)) = [] := by
        rw [List.filter_eq_nil_iff]
        intro x hx hfx
        have hfx2 : f x = b := by simpa using hfx
        exact h.1 (by rw [hab, ← hfx2]; exact List.mem_map_of_mem f hx)
      rw [List.filter_cons_of_pos (by simpa using hab), hnone]
      rfl
    · rw [List.filter_cons_of_neg (by simpa using hab)]
      apply ih h.2
      rw [List.map_cons, List.mem_cons] at hb
      rcases hb with hb | hb
      · exact absurd hb.symm hab
      · exact hb

/-- C8: for every list of scan roots and every directory tree, `ScanSystem` returns a
result whose Paths are pairwise distinct (also across roots), and for every install root
to which at least one visited candidate executable that verifies successfully resolves,
the result holds exactly one Installation with that Path. -/
theorem ScanSystem_one_per_root (P : Platform) (run : GoString → Option GoString)
    (fs : GoString → RootStat) (rootPaths : List GoString) :
    ∃ insts, ScanSystem P run fs rootPaths = .ok insts ∧
      (insts.map (fun i => i.Path)).Nodup ∧
      ∀ R, (∃ e ∈ scanEntries P fs rootPaths,
              IsCandidate P e.1 e.2 ∧ installRootOf P e.1 = R ∧ Verifies P run e.1 R) →
        (insts.filter (fun i => decide (i.Path = R))).length = 1 := by
  have inv := scanInv_visitAll P run (scanEntries P fs rootPaths)
  refine ⟨_, ScanSystem_eq P run fs rootPaths, inv.nodup, ?_⟩
  intro R hR
  have hmem : R ∈ (visitAll P run (scanEntries P fs rootPaths) ⟨[], [], []⟩).installations.map
      (fun i => i.Path) := (inv.seen_paths R).1 ((inv.seen_iff R).2 hR)
  exact filter_key_length_one (fun i : JavaInstallation => i.Path) _ inv.nodup R hmem

/-- The scan of `/opt` in the sample file system: two executables share the install root
`/opt/jdk`, one Installation is produced. -/
theorem ScanSystem_sample :
    ScanSystem posix64 sampleRun sampleFs ["/opt".toList, "/usr/lib/jvm".toList] =
      .ok [⟨"17.0.2".toList, 17, "/opt/jdk".toList, "OpenJDK".toList⟩] := rfl
theorem scanVisit_installations_mono (P : Platform) (run : GoString → Option GoString)
    (s : ScanState) (e : GoString × DirEntry) (inst : JavaInstallation)
    (h : inst ∈ s.installations) :
    inst ∈ (scanVisit P run s e.1 (some e.2) false).1.installations := by
  by_cases hc : IsCandidate P e.1 e.2
  · by_cases hs : installRootOf P e.1 ∈ s.seenPaths
    · rw [scanVisit_seen P run s e.1 e.2 hs]; exact h
    · rw [scanVisit_candidate P run s e.1 e.2 hc hs]
      cases verifyAndParseJava P run e.1 (installRootOf P e.1) with
      | ok i => exact List.mem_append_left _ h
      | error msg => exact h
  · rw [scanVisit_not_candidate P run s e.1 e.2 hc]; exact h

theorem visitAll_installations_mono (P : Platform) (run : GoString → Option GoString)
    (entries : List (GoString × DirEntry)) (s : ScanState) (inst : JavaInstallation)
    (h : inst ∈ s.installations) : inst ∈ (visitAll P run entries s).installations := by
  induction entries generalizing s with
  | nil => exact h
  | cons e entries ih =>
    exact ih _ (scanVisit_installations_mono P run s e inst h)

/-- C9 as stated fails: in the sample tree `bin/java` comes first and fails verification,
so its install root is not marked as seen; `bin/java.exe` resolves to the same install
root and is verified too.  The verifier has run twice for `/opt/jdk`, and the
Installation comes from the second candidate. -/
theorem scanRoots_verifies_twice_counterexample :
    scanRoots posix64 sampleRun sampleFs ["/opt".toList] ⟨[], [], []⟩ =
        .ok ⟨[⟨"17.0.2".toList, 17, "/opt/jdk".toList, "OpenJDK".toList⟩],
             ["/opt/jdk".toList],
             [("/opt/jdk/bin/java".toList, "/opt/jdk".toList),
              ("/opt/jdk/bin/java.exe".toList, "/opt/jdk".toList)]⟩ ∧
      ¬ ([("/opt/jdk/bin/java".toList, "/opt/jdk".toList),
          ("/opt/jdk/bin/java.exe".toList, "/opt/jdk".toList)].map Prod.snd).Nodup ∧
      verifyAndParseJava posix64 sampleRun "/opt/jdk/bin/java".toList "/opt/jdk".toList =
        .error "exit status 1" := by
  refine ⟨rfl, ?_, rfl⟩
  decide

/-- C9 (amended): during a scan, for every install root the first candidate in traversal
order that verifies successfully wins.  The scan returns; every run of the verifier is
for a visited candidate and the parent of its `bin` directory; once a run has succeeded
for an install root, no later candidate that resolves to that root is verified (so the
verifier succeeds at most once per distinct install root, while candidates that fail
leave their root open to later candidates); the result is the list of the successful
runs in order; and the Installation of the first candidate that verifies for a root is
in the result. -/
theorem scanRoots_first_success_wins (P : Platform) (run : GoString → Option GoString)
    (fs : GoString → RootStat) (rootPaths : List GoString) :
    ∃ s, scanRoots P run fs rootPaths ⟨[], [], []⟩ = .ok s ∧
      (∀ x ∈ s.launched, ∃ e ∈ scanEntries P fs rootPaths,
          IsCandidate P e.1 e.2 ∧ x = (e.1, P.Dir (P.Dir e.1))) ∧
      s.launched.Pairwise (fun x y => Verifies P run x.1 x.2 → y.2 ≠ x.2) ∧
      s.installations =
        s.launched.filterMap (fun x => (verifyAndParseJava P run x.1 x.2).toOption) ∧
      (∀ pre e post inst, scanEntries P fs rootPaths = pre ++ e :: post →
        IsCandidate P e.1 e.2 →
        verifyAndParseJava P run e.1 (P.Dir (P.Dir e.1)) = .ok inst →
        (∀ e1 ∈ pre, IsCandidate P e1.1 e1.2 → P.Dir (P.Dir e1.1) = P.Dir (P.Dir e.1) →
          ¬ Verifies P run e1.1 (P.Dir (P.Dir e1.1))) →
        inst ∈ s.installations) := by
  have inv := scanInv_visitAll P run (scanEntries P fs rootPaths)
  refine ⟨_, scanRoots_eq P run fs rootPaths _, inv.launched_cand, inv.after_success,
    inv.successes, ?_⟩
  intro pre e post inst hsplit hc hv hfirst
  have hpre := scanInv_visitAll P run pre
  have hunseen : installRootOf P e.1 ∉ (visitAll P run pre ⟨[], [], []⟩).seenPaths := by
    intro hin
    obtain ⟨e1, h1, h2, h3, h4⟩ := (hpre.seen_iff _).1 hin
    have h5 : P.Dir (P.Dir e1.1) = P.Dir (P.Dir e.1) := h3
    exact hfirst e1 h1 h2 h5 (by rw [h5]; exact h4)
  have hcons : pre ++ e :: post = pre ++ ([e] ++ post) := by simp
  rw [hsplit, hcons, visitAll_append, visitAll_append]
  apply visitAll_installations_mono
  show inst ∈ (scanVisit P run (visitAll P run pre ⟨[], [], []⟩) e.1 (some e.2) false).1.installations
  rw [scanVisit_candidate P run _ e.1 e.2 hc hunseen]
  have hv2 : verifyAndParseJava P run e.1 (installRootOf P e.1) = .ok inst := hv
  rw [hv2]
  exact List.mem_append_right _ (List.mem_singleton_self inst)

/-- In the sample tree the first candidate that verifies for `/opt/jdk` is
`bin/java.exe`, after `bin/java` has failed: its Installation is in the result. -/
theorem scanRoots_first_success_wins_witness :
    ∃ s, scanRoots posix64 sampleRun sampleFs ["/opt".toList] ⟨[], [], []⟩ = .ok s ∧
      (⟨"17.0.2".toList, 17, "/opt/jdk".toList, "OpenJDK".toList⟩ : JavaInstallation) ∈
        s.installations := by
  obtain ⟨s, hs, -, -, -, hfirst⟩ :=
    scanRoots_first_success_wins posix64 sampleRun sampleFs ["/opt".toList]
  refine ⟨s, hs, ?_⟩
  refine hfirst
    [("/opt".toList, ⟨"opt".toList, .dir⟩), ("/opt/.git".toList, ⟨".git".toList, .dir⟩),
     ("/opt/jdk".toList, ⟨"jdk".toList, .dir⟩), ("/opt/jdk/bin".toList, ⟨"bin".toList, .dir⟩),
     ("/opt/jdk/bin/java".toList, ⟨"java".toList, .regular⟩)]
    ("/opt/jdk/bin/java.exe".toList, ⟨"java.exe".toList, .regular⟩)
    [("/opt/jdk/bin/javac".toList, ⟨"javac".toList, .regular⟩)]
    ⟨"17.0.2".toList, 17, "/opt/jdk".toList, "OpenJDK".toList⟩ rfl ?_ rfl ?_
  · exact ⟨rfl, Or.inr rfl, rfl⟩
  · intro e1 he1 hc1 _ hv1
    obtain ⟨inst, hinst⟩ := hv1
    simp only [List.mem_cons, List.mem_singleton, List.not_mem_nil, or_false] at he1
    rcases he1 with rfl | rfl | rfl | rfl | rfl
    · exact absurd hc1.1 (by decide)
    · exact absurd hc1.1 (by decide)
    · exact absurd hc1.1 (by decide)
    · exact absurd hc1.1 (by decide)
    · exact absurd hinst (by simp [verifyAndParseJava, sampleRun])
theorem EqualFold_length (P : Platform) (s t : GoString) (h : EqualFold P s t = true) :
    s.length = t.length := by
  induction s generalizing t with
  | nil =>
    cases t with
    | nil => rfl
    | cons b t => simp [EqualFold] at h
  | cons a s ih =>
    cases t with
    | nil => simp [EqualFold] at h
    | cons b t =>
      simp only [EqualFold, Bool.and_eq_true] at h
      simp [ih t h.2]

/-- C10 as stated fails.  A symbolic link `/usr/bin/java` is not a regular file, yet the
callback treats it as a candidate and runs the verifier on it with install root `/usr`.
And on one and the same platform both `bin/java` and `bin/java.exe` are candidates,
although no launcher name equals both names up to case. -/
theorem scanVisit_symlink_counterexample :
    (scanVisit posix64 (fun _ => none) ⟨[], [], []⟩ "/usr/bin/java".toList
        (some ⟨"java".toList, .symlink⟩) false).1.launched =
        [("/usr/bin/java".toList, "/usr".toList)] ∧
      (∀ exeName, ¬ IsCandidateAsStated posix64 exeName "/usr/bin/java".toList
        ⟨"java".toList, .symlink⟩) ∧
      (scanVisit posix64 (fun _ => none) ⟨[], [], []⟩ "/opt/jdk/bin/java".toList
        (some ⟨"java".toList, .regular⟩) false).1.launched =
        [("/opt/jdk/bin/java".toList, "/opt/jdk".toList)] ∧
      (scanVisit posix64 (fun _ => none) ⟨[], [], []⟩ "/opt/jdk/bin/java.exe".toList
        (some ⟨"java.exe".toList, .regular⟩) false).1.launched =
        [("/opt/jdk/bin/java.exe".toList, "/opt/jdk".toList)] ∧
      (∀ exeName,
        ¬ (IsCandidateAsStated posix64 exeName "/opt/jdk/bin/java".toList
              ⟨"java".toList, .regular⟩ ∧
           IsCandidateAsStated posix64 exeName "/opt/jdk/bin/java.exe".toList
              ⟨"java.exe".toList, .regular⟩)) := by
  refine ⟨rfl, ?_, rfl, rfl, ?_⟩
  · intro exeName h
    exact absurd h.1 (by decide)
  · rintro exeName ⟨h1, h2⟩
    have l1 := EqualFold_length posix64 _ _ h1.2.1
    have l2 := EqualFold_length posix64 _ _ h2.2.1
    rw [← l1] at l2
    exact absurd l2 (by decide)

/-- C10 (amended): for every visited directory entry, the walker treats it as a candidate
if and only if it is not a directory (a regular file, a symbolic link or another kind of
entry), its lower-cased name is `java` or `java.exe` (both on every platform), and the
base name of its containing directory equals `bin` up to case.  A candidate whose install
root has not been seen is handed to the verifier together with the parent directory of
that `bin` directory, and nothing else is; the state is unchanged for an entry that is
not a candidate and for a candidate whose install root has been seen. -/
theorem scanVisit_candidate_iff (P : Platform) (run : GoString → Option GoString)
    (s : ScanState) (path : GoString) (d : DirEntry) :
    (P.Dir (P.Dir path) ∉ s.seenPaths →
        ((scanVisit P run s path (some d) false).1.launched =
            s.launched ++ [(path, P.Dir (P.Dir path))] ↔
          (d.IsDir = false ∧
            (ToLower P d.Name = "java".toList ∨ ToLower P d.Name = "java.exe".toList) ∧
            EqualFold P (P.Base (P.Dir path)) "bin".toList = true))) ∧
      (¬ IsCandidate P path d → (scanVisit P run s path (some d) false).1 = s) ∧
      (P.Dir (P.Dir path) ∈ s.seenPaths → (scanVisit P run s path (some d) false).1 = s) := by
  refine ⟨?_, scanVisit_not_candidate P run s path d, scanVisit_seen P run s path d⟩
  intro hs
  constructor
  · intro hl
    by_contra hc
    rw [scanVisit_not_candidate P run s path d hc] at hl
    have := congrArg List.length hl
    simp at this
  · intro hc
    rw [scanVisit_candidate P run s path d hc hs]
    cases verifyAndParseJava P run path (installRootOf P path) <;> rfl

/-- The regular file `/opt/jdk/bin/java` is a candidate: with no root seen yet, the
verifier is run on it with install root `/opt/jdk`. -/
theorem scanVisit_candidate_iff_witness :
    (scanVisit posix64 sampleRun ⟨[], [], []⟩ "/opt/jdk/bin/java".toList
        (some ⟨"java".toList, .regular⟩) false).1.launched =
      [] ++ [("/opt/jdk/bin/java".toList,
        posix64.Dir (posix64.Dir "/opt/jdk/bin/java".toList))] :=
  ((scanVisit_candidate_iff posix64 sampleRun ⟨[], [], []⟩ "/opt/jdk/bin/java".toList
      ⟨"java".toList, .regular⟩).1 (by decide)).2 ⟨rfl, Or.inl rfl, rfl⟩
/-! ## The calls of the walk and the pruned directories -/

theorem recordCalls_scanVisit_err (P : Platform) (run : GoString → Option GoString)
    (sl : ScanState × List WalkCall) (path : GoString) (d : Option DirEntry) :
    recordCalls (scanVisit P run) sl path d true = ((sl.1, sl.2 ++ [(path, d, true)]), .nil) := by
  simp [recordCalls, scanVisit_err]

theorem recordCalls_scanVisit_dir (P : Platform) (run : GoString → Option GoString)
    (sl : ScanState × List WalkCall) (path name : GoString) :
    recordCalls (scanVisit P run) sl path (some ⟨name, .dir⟩) false =
      ((sl.1, sl.2 ++ [(path, some ⟨name, .dir⟩, false)]),
        if ignoredDirs name then .SkipDir else .nil) := by
  simp [recordCalls, scanVisit_dir]

mutual
theorem walkDir_recordCalls (P : Platform) (run : GoString → Option GoString)
    (path : GoString) :
    ∀ (node : FsNode) (s : ScanState) (log : List WalkCall),
      walkDir P (recordCalls (scanVisit P run)) path node (s, log) =
        ((visitAll P run (walkEntries P path node) s, log ++ walkCalls P path node), .nil)
  | .leaf name type, s, log => by
    have h := scanVisit_leaf P run s path (FsNode.leaf name type).entry
      (leaf_entry_not_dir name type)
    simp only [walkDir, walkEntries, walkCalls, visitAll, List.foldl_cons, List.foldl_nil,
      recordCalls]
    exact Prod.ext rfl h
  | .dir name readDirErr children, s, log => by
    simp only [walkDir, walkEntries, walkCalls, recordCalls_scanVisit_dir,
      recordCalls_scanVisit_err]
    by_cases hi : ignoredDirs name = true
    · simp [hi, visitAll, scanVisit_dir]
    · cases readDirErr
      · have hrec := walkDirEntries_recordCalls P run path children s
          (log ++ [(path, some ⟨name, .dir⟩, false)])
        simp [hi, visitAll, scanVisit_dir]
        simpa [visitAll] using hrec
      · have hrec := walkDirEntries_recordCalls P run path children s
          (log ++ [(path, some ⟨name, .dir⟩, false)] ++ [(path, some ⟨name, .dir⟩, true)])
        simp [hi, visitAll, scanVisit_dir]
        simpa [visitAll] using hrec
theorem walkDirEntries_recordCalls (P : Platform) (run : GoString → Option GoString)
    (path : GoString) :
    ∀ (children : List FsNode) (s : ScanState) (log : List WalkCall),
      walkDirEntries P (recordCalls (scanVisit P run)) path children (s, log) =
        ((visitAll P run (walkEntriesList P path children) s,
          log ++ walkCallsList P path children), .nil)
  | [], s, log => by simp [walkDirEntries, walkEntriesList, walkCallsList, visitAll]
  | d1 :: rest, s, log => by
    have h1 := walkDir_recordCalls P run (P.Join path d1.entry.Name) d1 s log
    have h2 := walkDirEntries_recordCalls P run path rest
      (visitAll P run (walkEntries P (P.Join path d1.entry.Name) d1) s)
      (log ++ walkCalls P (P.Join path d1.entry.Name) d1)
    simp only [walkDirEntries, walkEntriesList, walkCallsList, h1, h2, visitAll_append,
      List.append_assoc]
end
mutual
theorem walkCalls_treeEntries (P : Platform) (path : GoString) (above : List GoString) :
    ∀ (node : FsNode), ∀ c ∈ walkCalls P path node,
      ∃ e ∈ treeEntries P path above node, c.1 = e.2.1 ∧ c.2.1 = some e.2.2 ∧
        ∀ a ∈ e.1, a ∈ above ∨ ignoredDirs a = false
  | .leaf name type, c, hc => by
    simp only [walkCalls, List.mem_singleton] at hc
    subst hc
    exact ⟨(above, path, (FsNode.leaf name type).entry), by simp [treeEntries], rfl, rfl,
      fun a ha => Or.inl ha⟩
  | .dir name readDirErr children, c, hc => by
    simp only [walkCalls, List.mem_cons] at hc
    rcases hc with rfl | hc
    · exact ⟨(above, path, ⟨name, .dir⟩), by simp [treeEntries], rfl, rfl,
        fun a ha => Or.inl ha⟩
    · by_cases hi : ignoredDirs name = true
      · simp [hi] at hc
      · simp only [hi, if_false, Bool.false_eq_true, List.mem_append] at hc
        rcases hc with hc | hc
        · have hc2 : c = (path, some ⟨name, .dir⟩, true) := by
            cases readDirErr <;> simp at hc
            exact hc
          subst hc2
          exact ⟨(above, path, ⟨name, .dir⟩), by simp [treeEntries], rfl, rfl,
            fun a ha => Or.inl ha⟩
        · obtain ⟨e, he, h1, h2, h3⟩ :=
            walkCallsList_treeEntries P path (name :: above) children c hc
          refine ⟨e, by simp [treeEntries, he], h1, h2, ?_⟩
          intro a ha
          rcases h3 a ha with h | h
          · rcases List.mem_cons.1 h with rfl | h
            · exact Or.inr (by simpa using hi)
            · exact Or.inl h
          · exact Or.inr h
theorem walkCallsList_treeEntries (P : Platform) (path : GoString) (above : List GoString) :
    ∀ (children : List FsNode), ∀ c ∈ walkCallsList P path children,
      ∃ e ∈ treeEntriesList P path above children, c.1 = e.2.1 ∧ c.2.1 = some e.2.2 ∧
        ∀ a ∈ e.1, a ∈ above ∨ ignoredDirs a = false
  | [], c, hc => by simp [walkCallsList] at hc
  | d1 :: rest, c, hc => by
    simp only [walkCallsList, List.mem_append] at hc
    rcases hc with hc | hc
    · obtain ⟨e, he, h⟩ := walkCalls_treeEntries P (P.Join path d1.entry.Name) above d1 c hc
      exact ⟨e, by simp [treeEntriesList, he], h⟩
    · obtain ⟨e, he, h⟩ := walkCallsList_treeEntries P path above rest c hc
      exact ⟨e, by simp [treeEntriesList, he], h⟩
end

mutual
theorem walkEntries_walkCalls (P : Platform) (path : GoString) :
    ∀ (node : FsNode), ∀ x ∈ walkEntries P path node,
      (x.1, some x.2, false) ∈ walkCalls P path node
  | .leaf name type, x, hx => by
    simp only [walkEntries, List.mem_singleton] at hx
    subst hx
    simp [walkCalls]
  | .dir name readDirErr children, x, hx => by
    simp only [walkEntries, List.mem_cons] at hx
    rcases hx with rfl | hx
    · simp [walkCalls]
    · by_cases hi : ignoredDirs name = true
      · simp [hi] at hx
      · simp only [hi, if_false, Bool.false_eq_true] at hx
        have := walkEntriesList_walkCalls P path children x hx
        simp only [walkCalls, hi, if_false, Bool.false_eq_true, List.mem_cons, List.mem_append]
        exact Or.inr (Or.inr this)
theorem walkEntriesList_walkCalls (P : Platform) (path : GoString) :
    ∀ (children : List FsNode), ∀ x ∈ walkEntriesList P path children,
      (x.1, some x.2, false) ∈ walkCallsList P path children
  | [], x, hx => by simp [walkEntriesList] at hx
  | d1 :: rest, x, hx => by
    simp only [walkEntriesList, List.mem_append] at hx
    simp only [walkCallsList, List.mem_append]
    rcases hx with hx | hx
    · exact Or.inl (walkEntries_walkCalls P (P.Join path d1.entry.Name) d1 x hx)
    · exact Or.inr (walkEntriesList_walkCalls P path rest x hx)
end

/-- Every entry that the walk of a tree visits is an entry of the tree with no ignored
directory of the tree above it. -/
theorem walkEntries_not_beneath_ignored (P : Platform) (path : GoString) (node : FsNode)
    (x : GoString × DirEntry) (hx : x ∈ walkEntries P path node) :
    ∃ e ∈ treeEntries P path [] node, x = e.2 ∧ ∀ a ∈ e.1, ignoredDirs a = false := by
  obtain ⟨e, he, h1, h2, h3⟩ :=
    walkCalls_treeEntries P path [] node _ (walkEntries_walkCalls P path node x hx)
  refine ⟨e, he, ?_, ?_⟩
  · simp only [Option.some.injEq] at h2
    exact Prod.ext h1 h2
  · intro a ha
    rcases h3 a ha with h | h
    · cases h
    · exact h

theorem mem_scanEntries (P : Platform) (fs : GoString → RootStat) (rootPaths : List GoString)
    (x : GoString × DirEntry) (hx : x ∈ scanEntries P fs rootPaths) :
    ∃ root ∈ rootPaths, ∃ node, fs root = .found node ∧ x ∈ walkEntries P root node := by
  induction rootPaths with
  | nil => cases hx
  | cons root rootPaths ih =>
    unfold scanEntries at hx
    cases hst : fs root with
    | notExist =>
      rw [hst] at hx
      obtain ⟨r, hr, h⟩ := ih hx
      exact ⟨r, List.mem_cons_of_mem _ hr, h⟩
    | lstatFails =>
      rw [hst] at hx
      obtain ⟨r, hr, h⟩ := ih hx
      exact ⟨r, List.mem_cons_of_mem _ hr, h⟩
    | found node =>
      rw [hst] at hx
      simp only [List.mem_append] at hx
      rcases hx with hx | hx
      · exact ⟨root, List.mem_cons_self _ _, node, hst, hx⟩
      · obtain ⟨r, hr, h⟩ := ih hx
        exact ⟨r, List.mem_cons_of_mem _ hr, h⟩
theorem WalkDir_recordCalls (P : Platform) (run : GoString → Option GoString)
    (root : GoString) (node : FsNode) (s : ScanState) (log : List WalkCall) :
    WalkDir P (recordCalls (scanVisit P run)) root (.found node) (s, log) =
      ((visitAll P run (walkEntries P root node) s, log ++ walkCalls P root node), .nil) := by
  simp [WalkDir, walkDir_recordCalls]

theorem toOption_eq_some {α : Type} (r : Except String α) (a : α)
    (h : r.toOption = some a) : r = .ok a := by
  cases r with
  | error e => cases h
  | ok b =>
    simp only [Except.toOption, Option.some.injEq] at h
    rw [h]

/-- C11 as stated fails: a scan root may itself lie beneath a directory of the ignore-set.
The scan of `/srv/node_modules/jdk` visits and verifies `bin/java` there, and the result
holds an Installation whose install root lies beneath `node_modules`. -/
theorem ScanSystem_root_beneath_ignored_counterexample :
    ScanSystem posix64 openjdkRun nodeModulesFs ["/srv/node_modules/jdk".toList] =
        .ok [⟨"17.0.2".toList, 17, "/srv/node_modules/jdk".toList, "OpenJDK".toList⟩] ∧
      scanRoots posix64 openjdkRun nodeModulesFs ["/srv/node_modules/jdk".toList] ⟨[], [], []⟩ =
        .ok ⟨[⟨"17.0.2".toList, 17, "/srv/node_modules/jdk".toList, "OpenJDK".toList⟩],
             ["/srv/node_modules/jdk".toList],
             [("/srv/node_modules/jdk/bin/java".toList, "/srv/node_modules/jdk".toList)]⟩ ∧
      UnderIgnoredDir "/srv/node_modules/jdk/bin/java".toList ∧
      UnderIgnoredDir "/srv/node_modules/jdk".toList :=
  ⟨rfl, rfl, ⟨"node_modules".toList, by decide, by decide⟩,
    ⟨"node_modules".toList, by decide, by decide⟩⟩

/-- C11 (amended): for every directory tree and every scan root, the walker never visits
an entry located beneath a directory that it meets during the walk (the scan root itself
or an entry below it) and whose name is in the ignore-set (Windows, ProgramData,
$Recycle.Bin, System Volume Information, .git, node_modules): every call of the callback
is on an entry of the walked tree with no such directory above it in the tree; every
executable that is verified is such an entry of the tree of one of the roots; and every
Installation of the result comes from such a verification and has the install root of
that executable.  The directories above the scan root are not examined. -/
theorem scanRoots_prunes_ignored (P : Platform) (run : GoString → Option GoString)
    (fs : GoString → RootStat) (rootPaths : List GoString) :
    (∀ (root : GoString) (node : FsNode) (s : ScanState),
        ∀ c ∈ (WalkDir P (recordCalls (scanVisit P run)) root (.found node) (s, [])).1.2,
          ∃ e ∈ treeEntries P root [] node,
            c.1 = e.2.1 ∧ c.2.1 = some e.2.2 ∧ ∀ a ∈ e.1, ignoredDirs a = false) ∧
      ∃ s, scanRoots P run fs rootPaths ⟨[], [], []⟩ = .ok s ∧
        ScanSystem P run fs rootPaths = .ok s.installations ∧
        (∀ x ∈ s.launched, ∃ root ∈ rootPaths, ∃ node, fs root = .found node ∧
          ∃ e ∈ treeEntries P root [] node,
            (∀ a ∈ e.1, ignoredDirs a = false) ∧ x = (e.2.1, P.Dir (P.Dir e.2.1))) ∧
        (∀ inst ∈ s.installations, ∃ x ∈ s.launched,
          verifyAndParseJava P run x.1 x.2 = .ok inst ∧ inst.Path = x.2) := by
  constructor
  · intro root node s c hc
    rw [WalkDir_recordCalls] at hc
    simp only [List.nil_append] at hc
    obtain ⟨e, he, h1, h2, h3⟩ := walkCalls_treeEntries P root [] node c hc
    refine ⟨e, he, h1, h2, ?_⟩
    intro a ha
    rcases h3 a ha with h | h
    · cases h
    · exact h
  · have inv := scanInv_visitAll P run (scanEntries P fs rootPaths)
    refine ⟨_, scanRoots_eq P run fs rootPaths _, ScanSystem_eq P run fs rootPaths, ?_, ?_⟩
    · intro x hx
      obtain ⟨v, hv, -, hxv⟩ := inv.launched_cand x hx
      obtain ⟨root, hroot, node, hfs, hw⟩ := mem_scanEntries P fs rootPaths v hv
      obtain ⟨e, he, hve, hno⟩ := walkEntries_not_beneath_ignored P root node v hw
      refine ⟨root, hroot, node, hfs, e, he, hno, ?_⟩
      rw [hxv, hve]
      rfl
    · intro inst hinst
      rw [inv.successes, List.mem_filterMap] at hinst
      obtain ⟨x, hx, hxo⟩ := hinst
      have hok := toOption_eq_some _ _ hxo
      exact ⟨x, hx, hok, verifyAndParseJava_path P run x.1 x.2 inst hok⟩

/-- In the sample tree the `bin/java` under `.git` is never handed to the callback: the
calls of the walk of `/opt` stop at `/opt/.git`. -/
theorem scanRoots_prunes_ignored_witness :
    (WalkDir posix64 (recordCalls (scanVisit posix64 sampleRun)) "/opt".toList
        (.found sampleTree) (⟨[], [], []⟩, [])).1.2.map (fun c => c.1) =
      ["/opt".toList, "/opt/.git".toList, "/opt/jdk".toList, "/opt/jdk/bin".toList,
       "/opt/jdk/bin/java".toList, "/opt/jdk/bin/java.exe".toList,
       "/opt/jdk/bin/javac".toList] ∧
    ∀ c ∈ (WalkDir posix64 (recordCalls (scanVisit posix64 sampleRun)) "/opt".toList
        (.found sampleTree) (⟨[], [], []⟩, [])).1.2,
      ∃ e ∈ treeEntries posix64 "/opt".toList [] sampleTree,
        c.1 = e.2.1 ∧ c.2.1 = some e.2.2 ∧ ∀ a ∈ e.1, ignoredDirs a = false :=
  ⟨rfl, (scanRoots_prunes_ignored posix64 sampleRun sampleFs ["/opt".toList]).1
    "/opt".toList sampleTree ⟨[], [], []⟩⟩
/-! ## Claims about the commands -/

theorem handleUse.find_eq_some (version : GoString) (l : List JavaInstallation)
    (h : ∃ inst ∈ l, inst.Version = version) : handleUse.find version l = some version := by
  induction l with
  | nil => obtain ⟨inst, hi, -⟩ := h; cases hi
  | cons a l ih =>
    unfold handleUse.find
    by_cases ha : a.Version = version
    · rw [if_pos ha, ha]
    · rw [if_neg ha]
      apply ih
      obtain ⟨inst, hi, hv⟩ := h
      rcases List.mem_cons.1 hi with rfl | hi
      · exact absurd hv ha
      · exact ⟨inst, hi, hv⟩

theorem handleUse.find_eq_none (version : GoString) (l : List JavaInstallation)
    (h : ∀ inst ∈ l, inst.Version ≠ version) : handleUse.find version l = none := by
  induction l with
  | nil => rfl
  | cons a l ih =>
    unfold handleUse.find
    rw [if_neg (h a (List.mem_cons_self _ _))]
    exact ih (fun inst hi => h inst (List.mem_cons_of_mem _ hi))

theorem first_version_split (version : GoString) (l : List JavaInstallation)
    (h : ∃ inst ∈ l, inst.Version = version) :
    ∃ pre inst post, l = pre ++ inst :: post ∧ (∀ x ∈ pre, x.Version ≠ version) ∧
      inst.Version = version := by
  induction l with
  | nil => obtain ⟨inst, hi, -⟩ := h; cases hi
  | cons a l ih =>
    by_cases ha : a.Version = version
    · refine ⟨[], a, l, rfl, ?_, ha⟩
      intro x hx
      cases hx
    · obtain ⟨inst, hi, hv⟩ := h
      rcases List.mem_cons.1 hi with rfl | hi
      · exact absurd hv ha
      · obtain ⟨pre, i, post, hl, hpre, hiv⟩ := ih ⟨inst, hi, hv⟩
        refine ⟨a :: pre, i, post, by rw [hl]; rfl, ?_, hiv⟩
        intro x hx
        rcases List.mem_cons.1 hx with rfl | hx
        · exact ha
        · exact hpre x hx

/-- C12: for every `use <version>` whose version is present in the loaded inventory and
whose save succeeds, the command first saves the inventory with currentVersion set to
that version and its installations unchanged, then calls the switch with the path
resolved for that version (the Path of the first installation with that Version); a
failing switch is reported and followed by nothing else, so the persisted inventory keeps
pointing at the intended version (no rollback). -/
theorem handleUse_persists_then_switches (env : CommandEnv) (version : GoString)
    (cfg : Config) (before : Option Config)
    (hload : env.LoadConfig = .ok cfg)
    (hpresent : ∃ inst ∈ cfg.Installations, inst.Version = version)
    (hsave : env.SaveConfig { cfg with CurrentVersion := version } = none) :
    handleUse env version =
        [.saveConfig { CurrentVersion := version, Installations := cfg.Installations } none,
         .stdout ("Target set to Java " ++ String.mk version ++ ".\n"),
         .switch (cfg.CurrentVersionPath version) (env.Switch (cfg.CurrentVersionPath version))] ++
        (match env.Switch (cfg.CurrentVersionPath version) with
          | some err => [.stderr ("Error switching system environment: " ++ err ++ "\n")]
          | none => []) ∧
      persistedAfter before (handleUse env version) =
        some { CurrentVersion := version, Installations := cfg.Installations } ∧
      (∃ pre inst post, cfg.Installations = pre ++ inst :: post ∧
        (∀ x ∈ pre, x.Version ≠ version) ∧ inst.Version = version ∧
        cfg.CurrentVersionPath version = inst.Path) := by
  have hfind := handleUse.find_eq_some version cfg.Installations hpresent
  have htrace : handleUse env version =
      [.saveConfig { CurrentVersion := version, Installations := cfg.Installations } none,
       .stdout ("Target set to Java " ++ String.mk version ++ ".\n"),
       .switch (cfg.CurrentVersionPath version) (env.Switch (cfg.CurrentVersionPath version))] ++
      (match env.Switch (cfg.CurrentVersionPath version) with
        | some err => [.stderr ("Error switching system environment: " ++ err ++ "\n")]
        | none => []) := by
    unfold handleUse
    simp only [hload, hfind, hsave]
    rfl
  refine ⟨htrace, ?_, ?_⟩
  · rw [htrace]
    cases env.Switch (cfg.CurrentVersionPath version) <;> rfl
  · obtain ⟨pre, inst, post, hl, hpre, hv⟩ :=
      first_version_split version cfg.Installations hpresent
    refine ⟨pre, inst, post, hl, hpre, hv, ?_⟩
    unfold Config.CurrentVersionPath
    rw [hl, CurrentVersionPath.scan_append version pre _ hpre]
    simp [CurrentVersionPath.scan, hv]

/-- With the sample inventory, `use 17.0.2` saves the inventory with current version
17.0.2, then calls the switch with `/opt/jdk17`; the switch fails and the inventory stays
saved. -/
theorem handleUse_persists_then_switches_witness :
    handleUse sampleEnv "17.0.2".toList =
        [.saveConfig { CurrentVersion := "17.0.2".toList,
                       Installations := sampleConfig.Installations } none,
         .stdout "Target set to Java 17.0.2.\n",
         .switch "/opt/jdk17".toList (some "failed to create symlink"),
         .stderr "Error switching system environment: failed to create symlink\n"] ∧
      persistedAfter (some sampleConfig) (handleUse sampleEnv "17.0.2".toList) =
        some { CurrentVersion := "17.0.2".toList,
               Installations := sampleConfig.Installations } :=
  ⟨(handleUse_persists_then_switches sampleEnv "17.0.2".toList sampleConfig
      (some sampleConfig) rfl
      ⟨⟨"17.0.2".toList, 17, "/opt/jdk17".toList, "OpenJDK".toList⟩, by decide, rfl⟩ rfl).1,
   (handleUse_persists_then_switches sampleEnv "17.0.2".toList sampleConfig
      (some sampleConfig) rfl
      ⟨⟨"17.0.2".toList, 17, "/opt/jdk17".toList, "OpenJDK".toList⟩, by decide, rfl⟩ rfl).2.1⟩
theorem handleScan_load_error (P : Platform) (env : CommandEnv) (e : String)
    (h : env.LoadConfig = .error e) (customPaths : List GoString) :
    handleScan P env customPaths =
      handleScan P { env with LoadConfig := .ok { CurrentVersion := [], Installations := [] } }
        customPaths := by
  simp only [handleScan, pathsToScan, h]

theorem handleUse_save_reported (env : CommandEnv) (version : GoString) (cfg : Config)
    (e : String) (h : (cfg, some e) ∈ savesOf (handleUse env version)) :
    ("Error saving config: " ++ e ++ "\n") ∈ stderrOf (handleUse env version) := by
  unfold handleUse at h ⊢
  cases h1 : env.LoadConfig with
  | error err => rw [h1] at h; simp [savesOf] at h
  | ok c =>
    rw [h1] at h
    simp only at h ⊢
    cases h2 : handleUse.find version c.Installations with
    | none => rw [h2] at h; simp [savesOf] at h
    | some cur =>
      rw [h2] at h
      simp only at h ⊢
      cases h3 : env.SaveConfig { CurrentVersion := cur, Installations := c.Installations } with
      | some err =>
        rw [h3] at h
        simp only [savesOf, List.mem_cons, Prod.mk.injEq, Option.some.injEq, List.not_mem_nil,
          or_false] at h
        simp [stderrOf, h.2]
      | none =>
        rw [h3] at h
        cases h4 : env.Switch
            (Config.CurrentVersionPath { CurrentVersion := cur, Installations := c.Installations }
              version) <;>
          simp [h4, savesOf] at h

theorem handleUse_switch_reported (env : CommandEnv) (version path : GoString) (e : String)
    (h : Effect.switch path (some e) ∈ handleUse env version) :
    ("Error switching system environment: " ++ e ++ "\n") ∈ stderrOf (handleUse env version) := by
  unfold handleUse at h ⊢
  cases h1 : env.LoadConfig with
  | error err => rw [h1] at h; simp at h
  | ok c =>
    rw [h1] at h
    simp only at h ⊢
    cases h2 : handleUse.find version c.Installations with
    | none => rw [h2] at h; simp at h
    | some cur =>
      rw [h2] at h
      simp only at h ⊢
      cases h3 : env.SaveConfig { CurrentVersion := cur, Installations := c.Installations } with
      | some err => rw [h3] at h; simp at h
      | none =>
        rw [h3] at h
        cases h4 : env.Switch
            (Config.CurrentVersionPath { CurrentVersion := cur, Installations := c.Installations }
              version) with
        | none => simp [h4] at h
        | some err =>
          simp only [h4, List.cons_append, List.nil_append, List.mem_cons, Effect.switch.injEq,
            Option.some.injEq, List.not_mem_nil, or_false, reduceCtorEq, false_or] at h
          simp [stderrOf, h.2]
theorem handleScan_found (P : Platform) (env : CommandEnv) (customPaths : List GoString)
    (cfg : Config) (found : List JavaInstallation)
    (hload : env.LoadConfig = .ok cfg)
    (hscan : env.ScanSystem (pathsToScan env customPaths) = .ok found) (hne : found ≠ []) :
    handleScan P env customPaths =
      [.stdout ("Scanning paths: [" ++
          " ".intercalate ((pathsToScan env customPaths).map String.mk) ++ "]\n"),
       .stdout ("Found " ++ toString found.length ++ " Java installations.\n")] ++
      (match env.SaveConfig { CurrentVersion := cfg.CurrentVersion, Installations := found } with
        | some err =>
          [.saveConfig { CurrentVersion := cfg.CurrentVersion, Installations := found }
             (some err),
           .stderr ("Error saving config: " ++ err ++ "\n")]
        | none =>
          [.saveConfig { CurrentVersion := cfg.CurrentVersion, Installations := found } none,
           .stdout ("Config saved to " ++
             String.mk (P.Join (P.Join env.UserHomeDir ".jswitch".toList)
               "config.json".toList) ++ "\n")]) := by
  have hlen : found.length > 0 := List.length_pos.2 hne
  simp only [handleScan, hload, hscan, hlen, if_true, List.append_nil, List.cons_append,
    List.nil_append]

theorem handleScan_nothing_found (P : Platform) (env : CommandEnv)
    (customPaths : List GoString)
    (hscan : env.ScanSystem (pathsToScan env customPaths) = .ok []) :
    handleScan P env customPaths =
      [.stdout ("Scanning paths: [" ++
          " ".intercalate ((pathsToScan env customPaths).map String.mk) ++ "]\n"),
       .stdout "No Java installations found.\n"] := by
  simp [handleScan, hscan]

theorem handleScan_save_reported (P : Platform) (env : CommandEnv)
    (customPaths : List GoString) (cfg : Config) (e : String)
    (h : (cfg, some e) ∈ savesOf (handleScan P env customPaths)) :
    ("Error saving config: " ++ e ++ "\n") ∈ stderrOf (handleScan P env customPaths) := by
  unfold handleScan at h ⊢
  simp only at h ⊢
  cases hs : env.ScanSystem (pathsToScan env customPaths) with
  | error err =>
    rw [hs] at h
    simp [savesOf] at h
  | ok found =>
    rw [hs] at h
    simp only at h ⊢
    by_cases hlen : found.length > 0
    · simp only [hlen, if_true] at h ⊢
      split at h
      · rename_i err hsave
        simp only [savesOf, List.nil_append, List.cons_append, List.mem_cons, Prod.mk.injEq,
          Option.some.injEq, List.not_mem_nil, or_false] at h
        simp [stderrOf, h.2]
      · simp [savesOf] at h
    · simp [hlen, savesOf] at h
/-- C13 as stated fails for the scan command: with a malformed persisted inventory and a
scan that finds one JDK, `scan` writes nothing to standard error, goes on with an empty
inventory and saves it over the persisted one. -/
theorem handleScan_swallows_load_error_counterexample :
    malformedEnv.LoadConfig =
        .error "failed to parse config file: unexpected end of JSON input" ∧
      handleScan posix64 malformedEnv ["/opt".toList] =
        [.stdout "Scanning paths: [/opt]\n",
         .stdout "Found 1 Java installations.\n",
         .saveConfig ⟨[], [⟨"17.0.2".toList, 17, "/opt/jdk17".toList, "OpenJDK".toList⟩]⟩ none,
         .stdout "Config saved to /home/u/.jswitch/config.json\n"] ∧
      stderrOf (handleScan posix64 malformedEnv ["/opt".toList]) = [] ∧
      persistedAfter none (handleScan posix64 malformedEnv ["/opt".toList]) =
        some ⟨[], [⟨"17.0.2".toList, 17, "/opt/jdk17".toList, "OpenJDK".toList⟩]⟩ :=
  ⟨rfl, rfl, rfl, rfl⟩

/-- C13 (amended): in `list` and `use`, every load error (a failed or malformed load)
reaches the user on standard error and ends the command; in `use` and `scan`, every save
error reaches the user, and in `use` every switch error reaches the user.  In `scan` a
failed or malformed load is not reported: the command behaves exactly as if the persisted
inventory were empty (and so replaces it when the scan finds installations). -/
theorem commands_report_errors (P : Platform) (env : CommandEnv) :
    (∀ e, env.LoadConfig = .error e →
        (∀ version, handleUse env version = [.stderr ("Error loading config: " ++ e ++ "\n")]) ∧
        handleList env = [.stderr ("Error loading config: " ++ e ++ "\n")]) ∧
      (∀ version cfg e, (cfg, some e) ∈ savesOf (handleUse env version) →
        ("Error saving config: " ++ e ++ "\n") ∈ stderrOf (handleUse env version)) ∧
      (∀ customPaths cfg e, (cfg, some e) ∈ savesOf (handleScan P env customPaths) →
        ("Error saving config: " ++ e ++ "\n") ∈ stderrOf (handleScan P env customPaths)) ∧
      (∀ version path e, Effect.switch path (some e) ∈ handleUse env version →
        ("Error switching system environment: " ++ e ++ "\n") ∈
          stderrOf (handleUse env version)) ∧
      (∀ e, env.LoadConfig = .error e → ∀ customPaths,
        handleScan P env customPaths =
          handleScan P
            { env with LoadConfig := .ok { CurrentVersion := [], Installations := [] } }
            customPaths) := by
  refine ⟨?_, handleUse_save_reported env, handleScan_save_reported P env,
    handleUse_switch_reported env, fun e h => handleScan_load_error P env e h⟩
  intro e he
  constructor
  · intro version
    simp [handleUse, he]
  · simp [handleList, he]

/-- With a malformed persisted inventory, `use` and `list` stop with the load error on
standard error; in the sample environment the failing switch of `use 17.0.2` is
reported. -/
theorem commands_report_errors_witness :
    (∀ version, handleUse malformedEnv version =
        [.stderr
          "Error loading config: failed to parse config file: unexpected end of JSON input\n"]) ∧
      "Error switching system environment: failed to create symlink\n" ∈
        stderrOf (handleUse sampleEnv "17.0.2".toList) :=
  ⟨((commands_report_errors posix64 malformedEnv).1
      "failed to parse config file: unexpected end of JSON input" rfl).1,
   (commands_report_errors posix64 sampleEnv).2.2.2.1 "17.0.2".toList "/opt/jdk17".toList
      "failed to create symlink" (by decide)⟩

/-- C14 as stated fails for an empty scan result: with three installations persisted and
a scan that finds nothing, `scan` calls `SaveConfig` not at all, and the persisted
inventory keeps its three installations instead of the empty scan result. -/
theorem handleScan_empty_result_counterexample :
    sampleEnv.ScanSystem (pathsToScan sampleEnv []) = .ok [] ∧
      handleScan posix64 sampleEnv [] =
        [.stdout "Scanning paths: [/usr/lib/jvm /usr/java /Library/Java/JavaVirtualMachines]\n",
         .stdout "No Java installations found.\n"] ∧
      savesOf (handleScan posix64 sampleEnv []) = [] ∧
      persistedAfter (some sampleConfig) (handleScan posix64 sampleEnv []) = some sampleConfig ∧
      sampleConfig.Installations ≠ [] :=
  ⟨rfl, rfl, rfl, rfl, by decide⟩

/-- C14 (amended): for every previously persisted inventory that loads and every scan
result, when the result is not empty the scan command replaces the installations of the
inventory with the scan result, leaves currentVersion unchanged and hands the whole
inventory to `SaveConfig` (once), which persists it when it succeeds; when the result is
empty (a valid outcome, nothing goes to standard error) the command replaces and writes
nothing, and the persisted inventory stays as it was. -/
theorem handleScan_replaces_installations (P : Platform) (env : CommandEnv)
    (customPaths : List GoString) (cfg : Config) (found : List JavaInstallation)
    (before : Option Config)
    (hload : env.LoadConfig = .ok cfg)
    (hscan : env.ScanSystem (pathsToScan env customPaths) = .ok found) :
    (found ≠ [] →
        savesOf (handleScan P env customPaths) =
          [({ CurrentVersion := cfg.CurrentVersion, Installations := found },
            env.SaveConfig { CurrentVersion := cfg.CurrentVersion, Installations := found })] ∧
        (env.SaveConfig { CurrentVersion := cfg.CurrentVersion, Installations := found } = none →
          persistedAfter before (handleScan P env customPaths) =
            some { CurrentVersion := cfg.CurrentVersion, Installations := found })) ∧
      (found = [] →
        savesOf (handleScan P env customPaths) = [] ∧
        stderrOf (handleScan P env customPaths) = [] ∧
        persistedAfter before (handleScan P env customPaths) = before) := by
  constructor
  · intro hne
    rw [handleScan_found P env customPaths cfg found hload hscan hne]
    cases hsave : env.SaveConfig { CurrentVersion := cfg.CurrentVersion, Installations := found } with
    | none => exact ⟨rfl, fun _ => rfl⟩
    | some err => exact ⟨rfl, fun h => by cases h⟩
  · intro hnil
    subst hnil
    rw [handleScan_nothing_found P env customPaths hscan]
    exact ⟨rfl, rfl, rfl⟩

/-- With the sample inventory persisted and a scan of `/opt` that finds one JDK, the scan
command saves the inventory with that one installation and the old current version. -/
theorem handleScan_replaces_installations_witness :
    savesOf (handleScan posix64
        { sampleEnv with ScanSystem := ScanSystem posix64 sampleRun sampleFs } ["/opt".toList]) =
      [({ CurrentVersion := sampleConfig.CurrentVersion,
          Installations := [⟨"17.0.2".toList, 17, "/opt/jdk".toList, "OpenJDK".toList⟩] },
        none)] :=
  ((handleScan_replaces_installations posix64
      { sampleEnv with ScanSystem := ScanSystem posix64 sampleRun sampleFs } ["/opt".toList]
      sampleConfig [⟨"17.0.2".toList, 17, "/opt/jdk".toList, "OpenJDK".toList⟩] none rfl rfl).1
    (by decide)).1
/-! ## Claims about the selection menu -/

/-- C16: for every menu with a non-empty installation list and a cursor within
`0 <= cursor < len(installations)`, `Update` returns on every message and keeps the
cursor within these bounds (up from the first row goes to the last row, down from the
last row goes to the first); `SelectedID` is changed by Enter only, which sets it to the
Version of the installation at the cursor and quits; `q` and `ctrl+c` quit and leave
`SelectedID` as it was, so empty when it was empty. -/
theorem Update_cursor_in_range (m : Model) (msg : Msg)
    (hne : m.installations ≠ [])
    (hc : 0 ≤ m.cursor ∧ m.cursor < (m.installations.length : Int)) :
    ∃ m2 cmd, m.Update msg = some (m2, cmd) ∧
      m2.installations = m.installations ∧
      (0 ≤ m2.cursor ∧ m2.cursor < (m2.installations.length : Int)) ∧
      (msg = .key "up".toList → m.cursor = 0 →
        m2.cursor = (m.installations.length : Int) - 1) ∧
      (msg = .key "down".toList → m.cursor = (m.installations.length : Int) - 1 →
        m2.cursor = 0) ∧
      (msg ≠ .key "enter".toList → m2.SelectedID = m.SelectedID) ∧
      (msg = .key "enter".toList →
        cmd = .Quit ∧ m2.cursor = m.cursor ∧
        ∃ inst, m.installations.get? m.cursor.toNat = some inst ∧
          m2.SelectedID = inst.Version) ∧
      (msg = .key "q".toList ∨ msg = .key "ctrl+c".toList →
        cmd = .Quit ∧ m2.quitting = true ∧ m2.SelectedID = m.SelectedID ∧
        (m.SelectedID = [] → m2.SelectedID = [])) := by
  have hlen : 0 < m.installations.length := List.length_pos.2 hne
  have hlenI : (0 : Int) < (m.installations.length : Int) := by exact_mod_cast hlen
  obtain ⟨h0, h1⟩ := hc
  cases msg with
  | other =>
    refine ⟨m, .nil, rfl, rfl, ⟨h0, h1⟩, ?_, ?_, ?_, ?_, ?_⟩
    · intro h; cases h
    · intro h; cases h
    · intro _; rfl
    · intro h; cases h
    · rintro (h | h) <;> cases h
  | key name =>
    unfold Model.Update
    simp only
    by_cases hq : name = "ctrl+c".toList ∨ name = "q".toList
    · rw [if_pos hq]
      refine ⟨_, _, rfl, rfl, ⟨h0, h1⟩, ?_, ?_, ?_, ?_, ?_⟩
      · intro h; injection h with h; subst h; rcases hq with hq | hq <;> exact absurd hq (by decide)
      · intro h; injection h with h; subst h; rcases hq with hq | hq <;> exact absurd hq (by decide)
      · intro _; rfl
      · intro h; injection h with h; subst h; rcases hq with hq | hq <;> exact absurd hq (by decide)
      · intro _; exact ⟨rfl, rfl, rfl, fun h => h⟩
    · rw [if_neg hq]
      have hnq : ¬ (Msg.key name = .key "q".toList ∨ Msg.key name = .key "ctrl+c".toList) := by
        rintro (h | h) <;> injection h with h
        · exact hq (Or.inr h)
        · exact hq (Or.inl h)
      by_cases hu : name = "up".toList ∨ name = "k".toList
      · rw [if_pos hu]
        by_cases hpos : m.cursor > 0
        · rw [if_pos hpos]
          refine ⟨_, _, rfl, rfl, ⟨by simp only; omega, by simp only; omega⟩, ?_, ?_, ?_, ?_, ?_⟩
          · intro _ hz; omega
          · intro h; injection h with h; subst h
            rcases hu with hu | hu <;> exact absurd hu (by decide)
          · intro _; rfl
          · intro h; injection h with h; subst h
            rcases hu with hu | hu <;> exact absurd hu (by decide)
          · intro h; exact absurd h hnq
        · rw [if_neg hpos]
          refine ⟨_, _, rfl, rfl, ⟨by simp only; omega, by simp only; omega⟩, ?_, ?_, ?_, ?_, ?_⟩
          · intro _ _; rfl
          · intro h; injection h with h; subst h
            rcases hu with hu | hu <;> exact absurd hu (by decide)
          · intro _; rfl
          · intro h; injection h with h; subst h
            rcases hu with hu | hu <;> exact absurd hu (by decide)
          · intro h; exact absurd h hnq
      · rw [if_neg hu]
        by_cases hd : name = "down".toList ∨ name = "j".toList
        · rw [if_pos hd]
          by_cases hlt : m.cursor < (m.installations.length : Int) - 1
          · rw [if_pos hlt]
            refine ⟨_, _, rfl, rfl, ⟨by simp only; omega, by simp only; omega⟩, ?_, ?_, ?_, ?_, ?_⟩
            · intro h; injection h with h; subst h
              rcases hd with hd | hd <;> exact absurd hd (by decide)
            · intro _ hz; omega
            · intro _; rfl
            · intro h; injection h with h; subst h
              rcases hd with hd | hd <;> exact absurd hd (by decide)
            · intro h; exact absurd h hnq
          · rw [if_neg hlt]
            refine ⟨_, _, rfl, rfl, ⟨by simp only; omega, by simp only; omega⟩, ?_, ?_, ?_, ?_, ?_⟩
            · intro h; injection h with h; subst h
              rcases hd with hd | hd <;> exact absurd hd (by decide)
            · intro _ _; rfl
            · intro _; rfl
            · intro h; injection h with h; subst h
              rcases hd with hd | hd <;> exact absurd hd (by decide)
            · intro h; exact absurd h hnq
        · rw [if_neg hd]
          by_cases he : name = "enter".toList
          · rw [if_pos he, if_pos hlen, if_pos h0]
            have hidx : m.cursor.toNat < m.installations.length := by omega
            have hget : m.installations.get? m.cursor.toNat =
                some (m.installations.get ⟨m.cursor.toNat, hidx⟩) := List.get?_eq_get hidx
            rw [hget]
            refine ⟨_, _, rfl, rfl, ⟨h0, h1⟩, ?_, ?_, ?_, ?_, ?_⟩
            · intro h; injection h with h; subst h; exact absurd he (by decide)
            · intro h; injection h with h; subst h; exact absurd he (by decide)
            · intro h; exact absurd (by rw [he]) h
            · intro _; exact ⟨rfl, rfl, _, rfl, rfl⟩
            · intro h; exact absurd h hnq
          · rw [if_neg he]
            refine ⟨m, .nil, rfl, rfl, ⟨h0, h1⟩, ?_, ?_, ?_, ?_, ?_⟩
            · intro h; injection h with h; exact absurd (Or.inl h) hu
            · intro h; injection h with h; exact absurd (Or.inl h) hd
            · intro _; rfl
            · intro h; injection h with h; exact absurd h he
            · intro h; exact absurd h hnq

/-- With the cursor on the last of three rows, `down` moves it to the first row. -/
theorem Update_cursor_in_range_witness :
    ∃ m2 cmd, sampleModel.Update (.key "down".toList) = some (m2, cmd) ∧ m2.cursor = 0 := by
  obtain ⟨m2, cmd, h, -, -, -, hdown, -⟩ :=
    Update_cursor_in_range sampleModel (.key "down".toList) (by decide) (by decide)
  exact ⟨m2, cmd, h, hdown rfl (by decide)⟩

/-- Enter on the last row selects the version of the third installation and quits; `q`
quits with nothing selected. -/
theorem Update_enter_and_quit :
    sampleModel.Update (.key "enter".toList) =
        some ({ sampleModel with SelectedID := "17.0.2".toList }, .Quit) ∧
      sampleModel.Update (.key "q".toList) =
        some ({ sampleModel with quitting := true }, .Quit) :=
  ⟨rfl, rfl⟩
/-! ## Claims about the config store -/

theorem EqualFold_of_length_ne (P : Platform) (s t : GoString) (h : s.length ≠ t.length) :
    EqualFold P s t = false := by
  cases hft : EqualFold P s t with
  | false => rfl
  | true => exact absurd (EqualFold_length P s t hft) h

theorem toValidUTF8_of_valid (s : RawString) (h : IsValidUTF8 s) : toValidUTF8 s = s := by
  induction s with
  | nil => rfl
  | cons u s ih =>
    obtain ⟨c, hc⟩ := h u (List.mem_cons_self _ _)
    have hs : IsValidUTF8 s := fun v hv => h v (List.mem_cons_of_mem _ hv)
    have ih2 := ih hs
    unfold toValidUTF8 rawOf runesOf at ih2 ⊢
    subst hc
    simp only [List.map_cons, List.map_map] at ih2 ⊢
    rw [ih2]

theorem runesOf_toValidUTF8 (s : RawString) : runesOf (toValidUTF8 s) = runesOf s := by
  unfold toValidUTF8 rawOf runesOf
  simp [List.map_map, Function.comp_def]

theorem unmarshal_marshalInstallation (P : Platform) (i : RawInstallation)
    (hfit : FitsInt P i.MajorVersion) :
    unmarshalInstallation P (marshalInstallation i) = .ok (coerceInstallation i) := by
  have e1 : EqualFold P "version".toList "version".toList = true := EqualFold_self P _
  have e2 : EqualFold P "major_version".toList "version".toList = false :=
    EqualFold_of_length_ne P _ _ (by decide)
  have e3 : EqualFold P "major_version".toList "major_version".toList = true :=
    EqualFold_self P _
  have e4 : EqualFold P "path".toList "version".toList = false :=
    EqualFold_of_length_ne P _ _ (by decide)
  have e5 : EqualFold P "path".toList "major_version".toList = false :=
    EqualFold_of_length_ne P _ _ (by decide)
  have e6 : EqualFold P "path".toList "path".toList = true := EqualFold_self P _
  have e7 : EqualFold P "vendor".toList "version".toList = false :=
    EqualFold_of_length_ne P _ _ (by decide)
  have e8 : EqualFold P "vendor".toList "major_version".toList = false :=
    EqualFold_of_length_ne P _ _ (by decide)
  have e9 : EqualFold P "vendor".toList "path".toList = false :=
    EqualFold_of_length_ne P _ _ (by decide)
  have e10 : EqualFold P "vendor".toList "vendor".toList = true := EqualFold_self P _
  have hfit2 : -(2 : Int) ^ (P.intSize - 1) ≤ i.MajorVersion ∧
      i.MajorVersion < (2 : Int) ^ (P.intSize - 1) := hfit
  simp only [unmarshalInstallation, marshalInstallation, unmarshalInstallationMembers,
    unmarshalString, unmarshalInt, e1, e2, e3, e4, e5, e6, e7, e8, e9, e10, hfit2,
    if_true, Bool.false_eq_true, if_false, and_self]
  rfl

theorem unmarshalItems_marshal (P : Platform) (l : List RawInstallation)
    (hfit : ∀ i ∈ l, FitsInt P i.MajorVersion) :
    unmarshalItems P (l.map marshalInstallation) = .ok (l.map coerceInstallation) := by
  induction l with
  | nil => rfl
  | cons i l ih =>
    simp only [List.map_cons, unmarshalItems,
      unmarshal_marshalInstallation P i (hfit i (List.mem_cons_self _ _)),
      ih (fun j hj => hfit j (List.mem_cons_of_mem _ hj))]

theorem Unmarshal_MarshalIndent (P : Platform) (cfg : RawConfig) (hfit : MajorsFit P cfg) :
    Unmarshal P (MarshalIndent cfg) = .ok (coerceConfig cfg) := by
  have e1 : EqualFold P "current_version".toList "current_version".toList = true :=
    EqualFold_self P _
  have e2 : EqualFold P "installations".toList "current_version".toList = false :=
    EqualFold_of_length_ne P _ _ (by decide)
  have e3 : EqualFold P "installations".toList "installations".toList = true :=
    EqualFold_self P _
  obtain ⟨cur, insts⟩ := cfg
  cases insts with
  | none =>
    simp only [Unmarshal, MarshalIndent, unmarshalConfigMembers, unmarshalString, e1, e2, e3,
      if_true, Bool.false_eq_true, if_false]
    rfl
  | some l =>
    have hl := unmarshalItems_marshal P l (hfit l rfl)
    simp only [Unmarshal, MarshalIndent, unmarshalConfigMembers, unmarshalString, e1, e2, e3,
      if_true, Bool.false_eq_true, if_false, hl]
    rfl

theorem map_coerceInstallation_of_valid (l : List RawInstallation)
    (h : ∀ i ∈ l, IsValidUTF8 i.Version ∧ IsValidUTF8 i.Path ∧ IsValidUTF8 i.Vendor) :
    l.map coerceInstallation = l := by
  induction l with
  | nil => rfl
  | cons i l ih =>
    obtain ⟨a, b, c⟩ := h i (List.mem_cons_self _ _)
    have hi : coerceInstallation i = i := by
      unfold coerceInstallation
      rw [toValidUTF8_of_valid _ a, toValidUTF8_of_valid _ b, toValidUTF8_of_valid _ c]
    rw [List.map_cons, hi, ih (fun j hj => h j (List.mem_cons_of_mem _ hj))]

theorem coerceConfig_of_valid (cfg : RawConfig) (h : ValidStrings cfg) :
    coerceConfig cfg = cfg := by
  obtain ⟨cur, insts⟩ := cfg
  obtain ⟨h1, h2⟩ := h
  unfold coerceConfig
  simp only [toValidUTF8_of_valid cur h1]
  cases insts with
  | none => rfl
  | some l =>
    simp only [Option.map_some', map_coerceInstallation_of_valid l (h2 l rfl)]

theorem view_coerceConfig (cfg : RawConfig) : (coerceConfig cfg).view = cfg.view := by
  obtain ⟨cur, insts⟩ := cfg
  cases insts with
  | none => simp [coerceConfig, RawConfig.view, runesOf_toValidUTF8]
  | some l =>
    simp [coerceConfig, RawConfig.view, runesOf_toValidUTF8, coerceInstallation,
      Function.comp_def]
theorem SaveConfig_ok (f : StoreFaults) (cfg : RawConfig) (file file2 : FileState)
    (h : SaveConfig f cfg file = (file2, .ok ())) : file2 = .json (MarshalIndent cfg) := by
  unfold SaveConfig at h
  split at h
  · cases h
  · split at h
    · cases h
    · split at h
      · cases h
      · simp only [Prod.mk.injEq, and_true] at h
        exact h.symm

theorem LoadConfig_json (P : Platform) (f : StoreFaults) (doc : Json) (loaded : RawConfig)
    (h : LoadConfig P f (.json doc) = .ok loaded) : Unmarshal P doc = .ok loaded := by
  unfold LoadConfig at h
  split at h
  · cases h
  · split at h
    · cases h
    · simp only at h
      cases hu : Unmarshal P doc with
      | error e => rw [hu] at h; cases h
      | ok c => rw [hu] at h; exact h

/-- Loading when the backing file does not exist gives an empty inventory whose
installations are an empty slice, not nil, and no error. -/
theorem LoadConfig_absent (P : Platform) :
    LoadConfig P noStoreFaults .absent = .ok { CurrentVersion := [], Installations := some [] } :=
  rfl

/-- C15 as stated fails: an inventory whose installation path ends in the byte 0xFF (not
valid UTF-8) is saved and loaded without an error, and comes back with the rune U+FFFD in
place of that byte, so the path is not identical. -/
theorem SaveConfig_LoadConfig_invalid_utf8_counterexample :
    SaveConfig noStoreFaults latin1Config .absent =
        (.json (MarshalIndent latin1Config), .ok ()) ∧
      LoadConfig posix64 noStoreFaults (.json (MarshalIndent latin1Config)) =
        .ok { CurrentVersion := rawOf "17.0.2".toList
              Installations := some
                [⟨rawOf "17.0.2".toList, 17,
                  rawOf "/opt/jdk".toList ++ [.rune (Char.ofNat 0xFFFD)],
                  rawOf "OpenJDK".toList⟩] } ∧
      (rawOf "/opt/jdk".toList ++ [GoUnit.rune (Char.ofNat 0xFFFD)] : RawString) ≠
        rawOf "/opt/jdk".toList ++ [GoUnit.invalid 255] := by
  refine ⟨rfl, rfl, ?_⟩
  decide

/-- C15 (amended): for every inventory (whose major versions are values of Go's `int`),
saving it with `SaveConfig` and then loading it with `LoadConfig`, both succeeding and
with no write in between, yields the inventory with every byte that is not valid UTF-8
replaced by the rune U+FFFD and nothing else changed; so for every inventory whose
strings are valid UTF-8 it yields an identical current_version and an identical
installations sequence (same length, same order, same version, major_version, path and
vendor in each element).  The load of a document that has just been saved does not fail
to parse. -/
theorem SaveConfig_LoadConfig_roundtrip (P : Platform) (f1 f2 : StoreFaults)
    (cfg loaded : RawConfig) (file file2 : FileState)
    (hfit : MajorsFit P cfg)
    (hsave : SaveConfig f1 cfg file = (file2, .ok ()))
    (hload : LoadConfig P f2 file2 = .ok loaded) :
    loaded = coerceConfig cfg ∧
      (ValidStrings cfg → loaded = cfg) ∧
      loaded.view = cfg.view ∧
      LoadConfig P noStoreFaults file2 = .ok (coerceConfig cfg) := by
  have hfile := SaveConfig_ok f1 cfg file file2 hsave
  subst hfile
  have hu := LoadConfig_json P f2 _ loaded hload
  rw [Unmarshal_MarshalIndent P cfg hfit] at hu
  injection hu with hu
  subst hu
  refine ⟨rfl, fun hv => coerceConfig_of_valid cfg hv, view_coerceConfig cfg, ?_⟩
  simp [LoadConfig, noStoreFaults, Unmarshal_MarshalIndent P cfg hfit]

/-- The inventory of a JDK 8 and a JDK 17 with ASCII strings comes back identical. -/
theorem SaveConfig_LoadConfig_roundtrip_witness :
    LoadConfig posix64 noStoreFaults
        (SaveConfig noStoreFaults
          { CurrentVersion := rawOf "17.0.2".toList
            Installations := some
              [⟨rawOf "1.8.0_202".toList, 8, rawOf "/opt/jdk8".toList, rawOf "Oracle".toList⟩,
               ⟨rawOf "17.0.2".toList, 17, rawOf "/opt/jdk17".toList, rawOf "OpenJDK".toList⟩] }
          .notJson).1 =
      .ok { CurrentVersion := rawOf "17.0.2".toList
            Installations := some
              [⟨rawOf "1.8.0_202".toList, 8, rawOf "/opt/jdk8".toList, rawOf "Oracle".toList⟩,
               ⟨rawOf "17.0.2".toList, 17, rawOf "/opt/jdk17".toList, rawOf "OpenJDK".toList⟩] } := by
  have h := SaveConfig_LoadConfig_roundtrip posix64 noStoreFaults noStoreFaults
    { CurrentVersion := rawOf "17.0.2".toList
      Installations := some
        [⟨rawOf "1.8.0_202".toList, 8, rawOf "/opt/jdk8".toList, rawOf "Oracle".toList⟩,
         ⟨rawOf "17.0.2".toList, 17, rawOf "/opt/jdk17".toList, rawOf "OpenJDK".toList⟩] }
    { CurrentVersion := rawOf "17.0.2".toList
      Installations := some
        [⟨rawOf "1.8.0_202".toList, 8, rawOf "/opt/jdk8".toList, rawOf "Oracle".toList⟩,
         ⟨rawOf "17.0.2".toList, 17, rawOf "/opt/jdk17".toList, rawOf "OpenJDK".toList⟩] }
    .notJson _ ?_ rfl rfl
  · exact h.2.2.2
  · intro l hl i hi
    injection hl with hl
    subst hl
    simp only [List.mem_cons, List.mem_singleton, List.not_mem_nil, or_false] at hi
    rcases hi with rfl | rfl <;> (constructor <;> decide)

end JSwitch
